import Mathlib

/-!
# Verification of the `nengo_bio` core against its specification

This development shallowly embeds the core of the `nengo_bio` repository
(`src/nengo_bio/neurons.py`, `src/nengo_bio/builder/connection.py`, and the
reference two-compartment LIF simulator from
`src/nengo_bio/tests/test_neurons.py`) in Lean 4 and proves, or refutes,
the frozen claims about it.

Conventions:
* machine reals (numpy `float64`) are modelled as exact rationals `ℚ`;
* numpy 2-D arrays become `List (List ℚ)` (a list of rows);
* randomness (`rng.randint`) is modelled by an arbitrary stream
  `g : ℕ → ℕ` of draws, reduced modulo the valid range, so that every
  theorem quantifies over all possible random outcomes;
* numpy arrays that are mutated/copied (`np.copy` in `build_solver`) are
  modelled by an explicit heap mapping array identifiers to contents, so
  that copy-vs-view (aliasing) statements are expressible;
* Python exceptions become `Except`/`Option` results.
-/

namespace NengoBio

/-- A numpy 2-D array of floats: a list of rows. -/
abbrev Mat := List (List ℚ)

/-! ## Two-compartment LIF neuron integrator

Embedding of `ReferenceTwoCompLIFSimulator` from
`src/nengo_bio/tests/test_neurons.py` (lines 23-55).  The neuron parameters
mirror `TwoCompLIF.__init__` in `src/nengo_bio/neurons.py`. -/

/-- Parameters of a `TwoCompLIF` neuron (`src/nengo_bio/neurons.py`,
`TwoCompLIF.__init__`). -/
structure TwoCompLIFParams where
  C_som : ℚ
  C_den : ℚ
  g_leak_som : ℚ
  g_leak_den : ℚ
  g_couple : ℚ
  E_rev_leak : ℚ
  E_rev_exc : ℚ
  E_rev_inh : ℚ
  tau_ref : ℚ
  tau_spike : ℚ
  v_th : ℚ
  v_reset : ℚ
  v_spike : ℚ
deriving Repr, DecidableEq

/-- The per-neuron integrator state together with the per-step output
buffer entry (`out` is the slot of the `out` array the simulator writes
`1/dt` into when the neuron spikes). -/
structure SimState where
  v_som : ℚ
  v_den : ℚ
  tref : ℚ
  out : ℚ
deriving Repr, DecidableEq

/-- Dendritic/somatic voltage update of one substep of the reference
simulator (`test_neurons.py` lines 34-44): forward-Euler integration of the
conductance-based two-compartment dynamics over `dt/ss`. Returns the new
`(v_som, v_den)` pair; the remaining substep logic is in
`substepRefractory` and `substepSpike`. -/
def substepV (nrn : TwoCompLIFParams) (dt : ℚ) (ss : ℕ) (gE gI : ℚ)
    (s : SimState) : ℚ × ℚ :=
  let d_v_som :=
    (nrn.E_rev_leak - s.v_som) * nrn.g_leak_som +
    (s.v_den - s.v_som) * nrn.g_couple
  let d_v_den :=
    (nrn.E_rev_leak - s.v_den) * nrn.g_leak_den +
    (nrn.E_rev_exc - s.v_den) * gE +
    (nrn.E_rev_inh - s.v_den) * gI +
    (s.v_som - s.v_den) * nrn.g_couple
  (s.v_som + (dt / (ss : ℚ)) * d_v_som / nrn.C_som,
   s.v_den + (dt / (ss : ℚ)) * d_v_den / nrn.C_den)

/-- Refractory handling of one substep (`test_neurons.py` lines 46-48): if
the refractory timer is positive it is decremented by the substep width and
the somatic voltage is clamped to `v_spike` while the *decremented* timer
still exceeds `tau_ref`, else to `v_reset`.  Returns `(tref, v_som)` after
this stage. -/
def substepRefractory (nrn : TwoCompLIFParams) (dt : ℚ) (ss : ℕ)
    (tref v_som1 : ℚ) : ℚ × ℚ :=
  if 0 < tref then
    (tref - dt / (ss : ℚ),
     if nrn.tau_ref < tref - dt / (ss : ℚ) then nrn.v_spike else nrn.v_reset)
  else
    (tref, v_som1)

/-- Threshold/spike handling of one substep (`test_neurons.py` lines
50-53): if the somatic voltage exceeds `v_th` while the refractory timer is
non-positive, the timer is set to `tau_ref + tau_spike`, the somatic
voltage is forced to `v_spike` when `tau_spike > 0` (else `v_reset`) and
`1/dt` is written to the output slot. -/
def substepSpike (nrn : TwoCompLIFParams) (dt : ℚ)
    (v_som2 v_den1 tref1 out : ℚ) : SimState :=
  if nrn.v_th < v_som2 ∧ tref1 ≤ 0 then
    ⟨if 0 < nrn.tau_spike then nrn.v_spike else nrn.v_reset,
     v_den1, nrn.tau_ref + nrn.tau_spike, 1 / dt⟩
  else
    ⟨v_som2, v_den1, tref1, out⟩

/-- One substep of the reference simulator: the body of the
`for s in range(self.ss)` loop of `ReferenceTwoCompLIFSimulator.__call__`. -/
def refSubstep (nrn : TwoCompLIFParams) (dt : ℚ) (ss : ℕ) (gE gI : ℚ)
    (s : SimState) : SimState :=
  substepSpike nrn dt
    (substepRefractory nrn dt ss s.tref (substepV nrn dt ss gE gI s).1).2
    (substepV nrn dt ss gE gI s).2
    (substepRefractory nrn dt ss s.tref (substepV nrn dt ss gE gI s).1).1
    s.out

/-- One outer simulation step (`ReferenceTwoCompLIFSimulator.__call__`):
`ss` substeps applied in sequence. -/
def refStep (nrn : TwoCompLIFParams) (dt : ℚ) (ss : ℕ) (gE gI : ℚ)
    (s : SimState) : SimState :=
  (refSubstep nrn dt ss gE gI)^[ss] s

/-- Run the reference simulator over a finite stream of
excitatory/inhibitory conductance inputs, starting each outer step with a
zeroed output buffer exactly as the test harness
(`do_test_neuron`, `test_neurons.py` lines 75-81) does.  Returns the list
of per-step outputs. -/
def refRun (nrn : TwoCompLIFParams) (dt : ℚ) (ss : ℕ) :
    List (ℚ × ℚ) → SimState → List ℚ
  | [], _ => []
  | (gE, gI) :: rest, s =>
    let s1 := refStep nrn dt ss gE gI ⟨s.v_som, s.v_den, s.tref, 0⟩
    s1.out :: refRun nrn dt ss rest s1

/-- The initial simulator state (`ReferenceTwoCompLIFSimulator.__init__`):
both compartments start at `v_reset` and the neuron is not refractory. -/
def initState (nrn : TwoCompLIFParams) : SimState :=
  ⟨nrn.v_reset, nrn.v_reset, 0, 0⟩

/-- Modelled from the spec: the performance-optimized integrator lives in
`nengo_bio/internal/multi_compartment_lif_python.py` (and `_cpp`), which is
not under `src/`.  The spec describes it as "a parallel,
behavior-preserving specialization of the same stepping algorithm (e.g.
manually unrolled substep loop, precomputed per-step constants)"
(spec section 9) that "must be numerically interchangeable" with the
reference.  We model it as the same substep recurrence with the per-substep
factor `dt/(ss*C)` precomputed once and distributed over the conductance
terms. -/
def optSubstepV (nrn : TwoCompLIFParams) (dt : ℚ) (ss : ℕ) (gE gI : ℚ)
    (s : SimState) : ℚ × ℚ :=
  let aSom := dt / (ss : ℚ) / nrn.C_som
  let aDen := dt / (ss : ℚ) / nrn.C_den
  (s.v_som +
     (nrn.E_rev_leak - s.v_som) * (nrn.g_leak_som * aSom) +
     (s.v_den - s.v_som) * (nrn.g_couple * aSom),
   s.v_den +
     (nrn.E_rev_leak - s.v_den) * (nrn.g_leak_den * aDen) +
     (nrn.E_rev_exc - s.v_den) * (gE * aDen) +
     (nrn.E_rev_inh - s.v_den) * (gI * aDen) +
     (s.v_som - s.v_den) * (nrn.g_couple * aDen))

/-- Modelled from the spec: one substep of the optimized integrator —
identical refractory/threshold logic around the precomputed-constant
voltage update. -/
def optSubstep (nrn : TwoCompLIFParams) (dt : ℚ) (ss : ℕ) (gE gI : ℚ)
    (s : SimState) : SimState :=
  substepSpike nrn dt
    (substepRefractory nrn dt ss s.tref (optSubstepV nrn dt ss gE gI s).1).2
    (optSubstepV nrn dt ss gE gI s).2
    (substepRefractory nrn dt ss s.tref (optSubstepV nrn dt ss gE gI s).1).1
    s.out

/-- Modelled from the spec: one outer step of the optimized integrator. -/
def optStep (nrn : TwoCompLIFParams) (dt : ℚ) (ss : ℕ) (gE gI : ℚ)
    (s : SimState) : SimState :=
  (optSubstep nrn dt ss gE gI)^[ss] s

/-- Modelled from the spec: running the optimized integrator over a finite
input stream, stepped exactly like `refRun`. -/
def optRun (nrn : TwoCompLIFParams) (dt : ℚ) (ss : ℕ) :
    List (ℚ × ℚ) → SimState → List ℚ
  | [], _ => []
  | (gE, gI) :: rest, s =>
    let s1 := optStep nrn dt ss gE gI ⟨s.v_som, s.v_den, s.tref, 0⟩
    s1.out :: optRun nrn dt ss rest s1

theorem optSubstepV_eq (nrn : TwoCompLIFParams) (dt : ℚ) (ss : ℕ)
    (gE gI : ℚ) (s : SimState) :
    optSubstepV nrn dt ss gE gI s = substepV nrn dt ss gE gI s := by
  unfold optSubstepV substepV
  refine Prod.ext ?_ ?_ <;> simp only <;> ring

theorem optSubstep_eq (nrn : TwoCompLIFParams) (dt : ℚ) (ss : ℕ)
    (gE gI : ℚ) (s : SimState) :
    optSubstep nrn dt ss gE gI s = refSubstep nrn dt ss gE gI s := by
  unfold optSubstep refSubstep
  rw [optSubstepV_eq]

theorem optStep_eq (nrn : TwoCompLIFParams) (dt : ℚ) (ss : ℕ)
    (gE gI : ℚ) (s : SimState) :
    optStep nrn dt ss gE gI s = refStep nrn dt ss gE gI s := by
  unfold optStep refStep
  have h : optSubstep nrn dt ss gE gI = refSubstep nrn dt ss gE gI :=
    funext fun s => optSubstep_eq nrn dt ss gE gI s
  rw [h]

/-- C2: for every neuron parameter set and every finite stream of
excitatory/inhibitory conductance inputs, the reference two-compartment LIF
integrator and the optimized integrator, stepped with the same `dt` and
substep count from the same initial state, produce identical outputs (the
same `0` or `1/dt` value) at every step. -/
theorem two_comp_lif_ref_opt_equiv (nrn : TwoCompLIFParams) (dt : ℚ)
    (ss : ℕ) (inputs : List (ℚ × ℚ)) (s : SimState) :
    optRun nrn dt ss inputs s = refRun nrn dt ss inputs s := by
  induction inputs generalizing s with
  | nil => rfl
  | cons gEI rest ih =>
    obtain ⟨gE, gI⟩ := gEI
    simp only [optRun, refRun, optStep_eq, ih]

/-- The output slot after a substep is either unchanged or set to `1/dt`
(`out[...] = 1./self.dt` is an assignment, not an accumulation). -/
theorem refSubstep_out (nrn : TwoCompLIFParams) (dt : ℚ) (ss : ℕ)
    (gE gI : ℚ) (s : SimState) :
    (refSubstep nrn dt ss gE gI s).out = s.out ∨
    (refSubstep nrn dt ss gE gI s).out = 1 / dt := by
  unfold refSubstep substepSpike
  by_cases h : nrn.v_th < (substepRefractory nrn dt ss s.tref
      (substepV nrn dt ss gE gI s).1).2 ∧
      (substepRefractory nrn dt ss s.tref (substepV nrn dt ss gE gI s).1).1 ≤ 0
  · right; simp [h]
  · left; simp [h]

theorem refStep_out (nrn : TwoCompLIFParams) (dt : ℚ) (ss : ℕ)
    (gE gI : ℚ) (n : ℕ) (s : SimState) :
    ((refSubstep nrn dt ss gE gI)^[n] s).out = s.out ∨
    ((refSubstep nrn dt ss gE gI)^[n] s).out = 1 / dt := by
  induction n generalizing s with
  | zero => left; rfl
  | succ n ih =>
    rw [Function.iterate_succ_apply]
    rcases ih (refSubstep nrn dt ss gE gI s) with h | h
    · rw [h]; exact refSubstep_out nrn dt ss gE gI s
    · right; exact h

/-- C4: semantics of one integrator step of the two-compartment LIF state
machine (`ReferenceTwoCompLIFSimulator.__call__`):
1. if the somatic voltage exceeds the threshold voltage at the end of a
   substep while the (already decremented) refractory timer is
   non-positive, the substep sets the output slot to `1/dt`, sets the
   refractory timer to `tau_ref + tau_spike` and forces the somatic voltage
   to `v_spike` when `tau_spike > 0`, else to `v_reset`;
2. over a whole outer step begun with a zeroed output buffer the output is
   `0` or `1/dt` — at most one spike is credited per outer step even if
   several substeps cross threshold;
3. while the refractory timer is positive the somatic voltage is clamped to
   `v_spike` or `v_reset`, but the dendritic voltage still takes the full
   forward-Euler integration update. -/
theorem two_comp_lif_step_semantics (nrn : TwoCompLIFParams) (dt : ℚ)
    (ss : ℕ) (gE gI : ℚ) (s : SimState) :
    (nrn.v_th < (substepRefractory nrn dt ss s.tref
        (substepV nrn dt ss gE gI s).1).2 →
      (substepRefractory nrn dt ss s.tref
        (substepV nrn dt ss gE gI s).1).1 ≤ 0 →
      refSubstep nrn dt ss gE gI s =
        ⟨if 0 < nrn.tau_spike then nrn.v_spike else nrn.v_reset,
         (substepV nrn dt ss gE gI s).2, nrn.tau_ref + nrn.tau_spike,
         1 / dt⟩) ∧
    (s.out = 0 →
      (refStep nrn dt ss gE gI s).out = 0 ∨
      (refStep nrn dt ss gE gI s).out = 1 / dt) ∧
    (0 < s.tref →
      (refSubstep nrn dt ss gE gI s).v_den =
        (substepV nrn dt ss gE gI s).2 ∧
      ((refSubstep nrn dt ss gE gI s).v_som = nrn.v_spike ∨
       (refSubstep nrn dt ss gE gI s).v_som = nrn.v_reset)) := by
  refine ⟨fun hv ht => ?_, fun hout => ?_, fun htref => ?_⟩
  · unfold refSubstep substepSpike
    exact if_pos ⟨hv, ht⟩
  · have h := refStep_out nrn dt ss gE gI ss s
    rw [hout] at h
    exact h
  · constructor
    · unfold refSubstep substepSpike
      split <;> rfl
    · unfold refSubstep substepSpike substepRefractory
      rw [if_pos htref]
      dsimp only
      split_ifs <;> simp

/-- Concrete neuron parameters used by witnesses: unit capacitances and
conductances, `E_rev_leak = 0`, `E_rev_exc = 5`, `E_rev_inh = -1`,
`tau_ref = 2`, `tau_spike = 1`, `v_th = 1`, `v_reset = 0`, `v_spike = 2`. -/
def witnessParams : TwoCompLIFParams :=
  ⟨1, 1, 1, 1, 1, 0, 5, -1, 2, 1, 1, 0, 2⟩

theorem two_comp_lif_step_semantics_witness :
    (refSubstep witnessParams 1 1 0 0 ⟨0, 10, 0, 0⟩ = ⟨2, -10, 3, 1⟩) ∧
    ((refStep witnessParams 1 1 0 0 ⟨0, 10, 0, 0⟩).out = 0 ∨
     (refStep witnessParams 1 1 0 0 ⟨0, 10, 0, 0⟩).out = 1 / 1) ∧
    ((refSubstep witnessParams 1 1 0 0 ⟨0, 0, 5, 0⟩).v_den =
       (substepV witnessParams 1 1 0 0 ⟨0, 0, 5, 0⟩).2 ∧
     ((refSubstep witnessParams 1 1 0 0 ⟨0, 0, 5, 0⟩).v_som =
        witnessParams.v_spike ∨
      (refSubstep witnessParams 1 1 0 0 ⟨0, 0, 5, 0⟩).v_som =
        witnessParams.v_reset)) := by
  refine ⟨?_, ?_, ?_⟩
  · have h := (two_comp_lif_step_semantics witnessParams 1 1 0 0
      ⟨0, 10, 0, 0⟩).1
      (by norm_num [substepRefractory, substepV, witnessParams])
      (by norm_num [substepRefractory, substepV, witnessParams])
    refine h.trans ?_
    norm_num [substepV, witnessParams, SimState.mk.injEq]
  · exact (two_comp_lif_step_semantics witnessParams 1 1 0 0
      ⟨0, 10, 0, 0⟩).2.1 rfl
  · exact (two_comp_lif_step_semantics witnessParams 1 1 0 0
      ⟨0, 0, 5, 0⟩).2.2 (by norm_num)

/-! ## Single-compartment LIF gain/bias computations

Embedding of `LIF.threshold_current`, `LIF._lif_parameters`,
`LIF.gain_bias` and `LIF.max_rates_intercepts` from
`src/nengo_bio/neurons.py` (lines 113-181).  The closed-form rate function
and its inverse live in `nengo_bio/internal/lif_utils.py`, which is not
under `src/`; they are abstracted as function parameters
(`lif_rate_inv`, `lif_rate`), which suffices because the claims only
constrain how `gain_bias` composes them. -/

/-- Parameters of the single-compartment `LIF` neuron type
(`LIF.__init__`). -/
structure LIFParams where
  C_som : ℚ
  g_leak_som : ℚ
  E_rev_leak : ℚ
  tau_ref : ℚ
  tau_spike : ℚ
  v_th : ℚ
  v_reset : ℚ
  v_spike : ℚ
deriving Repr, DecidableEq

/-- `LIF.threshold_current`: the input current at which the neuron starts
spiking. -/
def threshold_current (n : LIFParams) : ℚ :=
  (n.v_th - n.E_rev_leak) * n.g_leak_som

/-- `LIF._lif_parameters`: `(tau_ref + tau_spike, tau_rc, i_th)`. -/
def lif_parameters (n : LIFParams) : ℚ × ℚ × ℚ :=
  (n.tau_spike + n.tau_ref, n.C_som / n.g_leak_som, threshold_current n)

/-- `LIF._lif_rate_inv`: the input current producing a given rate,
`lif_utils.lif_rate_inv(a, tau_ref, tau_rc) * i_th` with the external
`lif_utils.lif_rate_inv` abstracted as `lif_rate_inv`. -/
def lif_rate_inv_current (lif_rate_inv : ℚ → ℚ → ℚ → ℚ) (n : LIFParams)
    (a : ℚ) : ℚ :=
  lif_rate_inv a (lif_parameters n).1 (lif_parameters n).2.1 *
    (lif_parameters n).2.2

/-- The guard of `LIF.gain_bias` (neurons.py lines 151-159):
`inv_tau_ref = 1/tau_ref if tau_ref > 0 else inf`, error when any requested
maximum rate exceeds `inv_tau_ref` (so no error is possible when
`tau_ref + tau_spike = 0`). -/
def max_rate_excess (n : LIFParams) (max_rates : List ℚ) : Prop :=
  0 < (lif_parameters n).1 ∧
    ∃ r ∈ max_rates, 1 / (lif_parameters n).1 < r

instance (n : LIFParams) (max_rates : List ℚ) :
    Decidable (max_rate_excess n max_rates) := by
  unfold max_rate_excess
  infer_instance

/-- The validation error raised by `LIF.gain_bias`
(`nengo.exceptions.ValidationError`). -/
inductive GainBiasError where
  | validationError
deriving Repr, DecidableEq

/-- `LIF.gain_bias` (neurons.py lines 144-168): reject max rates above the
maximally attainable rate, then solve `i_th = gain*intercepts + bias`,
`i_max = gain + bias` by `gain = (i_max - i_th)/(1 - intercepts)`,
`bias = i_max - gain`. -/
def gain_bias (lif_rate_inv : ℚ → ℚ → ℚ → ℚ) (n : LIFParams)
    (max_rates intercepts : List ℚ) :
    Except GainBiasError (List ℚ × List ℚ) :=
  if max_rate_excess n max_rates then
    .error .validationError
  else
    let i_max := max_rates.map (lif_rate_inv_current lif_rate_inv n)
    let gain := List.zipWith
      (fun im x => (im - (lif_parameters n).2.2) / (1 - x)) i_max intercepts
    let bias := List.zipWith (fun im g => im - g) i_max gain
    .ok (gain, bias)

/-- numpy float division with a finite numerator is non-finite (`±inf` or
`nan`) exactly when the denominator is zero; `none` models the non-finite
outcome. -/
def finiteDiv (a b : ℚ) : Option ℚ :=
  if b = 0 then none else some (a / b)

/-- `LIF.max_rates_intercepts` (neurons.py lines 170-181), with the
external closed-form rate function abstracted as `lif_rate`.  The third
component records whether non-finite intercepts were detected.  On that
path the source executes `warnings.warn(...)` (line 178), but
`neurons.py` never imports `warnings`, so the call raises a `NameError`
and the function aborts instead of warning and returning. -/
def max_rates_intercepts (lif_rate : ℚ → ℚ) (n : LIFParams)
    (gain bias : List ℚ) : List ℚ × List (Option ℚ) × Bool :=
  let max_rates := List.zipWith (fun g b => lif_rate (g + b)) gain bias
  let intercepts := List.zipWith
    (fun g b => finiteDiv (threshold_current n - b) g) gain bias
  (max_rates, intercepts, intercepts.any fun x => x.isNone)

theorem getD_map {α β : Type} (f : α → β) (l : List α) (i : ℕ) (d : β)
    (d₀ : α) (h : i < l.length) : (l.map f).getD i d = f (l.getD i d₀) := by
  induction l generalizing i with
  | nil => simp at h
  | cons x xs ih =>
    cases i with
    | zero => rfl
    | succ i => exact ih i (Nat.lt_of_succ_lt_succ h)

theorem getD_zipWith {α β γ : Type} (f : α → β → γ) (a : List α)
    (b : List β) (i : ℕ) (d : γ) (d₁ : α) (d₂ : β)
    (ha : i < a.length) (hb : i < b.length) :
    (List.zipWith f a b).getD i d = f (a.getD i d₁) (b.getD i d₂) := by
  induction a generalizing b i with
  | nil => simp at ha
  | cons x xs ih =>
    cases b with
    | nil => simp at hb
    | cons y ys =>
      cases i with
      | zero => rfl
      | succ i =>
        exact ih ys i (Nat.lt_of_succ_lt_succ ha) (Nat.lt_of_succ_lt_succ hb)

/-- C7 (amended): for requested maximum rates not exceeding the maximally
attainable rate, `gain_bias` returns gain and bias satisfying both linear
equations `i_th = gain*intercept + bias` and `i_max = gain + bias` at
every index whose intercept differs from 1, with `i_max` the inverse LIF
rate function evaluated at the requested maximum rate; requesting a
maximum rate above `1/(tau_ref + tau_spike)` yields the validation error.
(The original claim quantified over all intercept arrays; at an intercept
of exactly 1 the division `(i_max - i_th)/(1 - intercept)` is by zero and
the equations fail — see `lif_gain_bias_intercept_one_fails`.) -/
theorem lif_gain_bias_solves (lif_rate_inv : ℚ → ℚ → ℚ → ℚ) (n : LIFParams)
    (max_rates intercepts : List ℚ)
    (hlen : max_rates.length = intercepts.length) :
    (¬ max_rate_excess n max_rates →
      ∃ gain bias,
        gain_bias lif_rate_inv n max_rates intercepts = .ok (gain, bias) ∧
        ∀ i, i < max_rates.length → intercepts.getD i 0 ≠ 1 →
          gain.getD i 0 * intercepts.getD i 0 + bias.getD i 0 =
            threshold_current n ∧
          gain.getD i 0 + bias.getD i 0 =
            lif_rate_inv_current lif_rate_inv n (max_rates.getD i 0)) ∧
    (max_rate_excess n max_rates →
      gain_bias lif_rate_inv n max_rates intercepts =
        .error .validationError) := by
  constructor
  · intro hexc
    unfold gain_bias
    rw [if_neg hexc]
    refine ⟨_, _, rfl, fun i hi hx => ?_⟩
    have hmap : i < (max_rates.map (lif_rate_inv_current lif_rate_inv n)).length := by
      simpa using hi
    have hint : i < intercepts.length := hlen ▸ hi
    have hgainlen : i < (List.zipWith
        (fun im x => (im - (lif_parameters n).2.2) / (1 - x))
        (max_rates.map (lif_rate_inv_current lif_rate_inv n))
        intercepts).length := by
      rw [List.length_zipWith]
      exact lt_min hmap hint
    rw [getD_zipWith _ _ _ _ _ 0 0 hmap hgainlen,
        getD_zipWith _ _ _ _ _ 0 0 hmap hint,
        getD_map _ _ _ _ 0 hi]
    set im := lif_rate_inv_current lif_rate_inv n (max_rates.getD i 0)
    set x := intercepts.getD i 0
    have h1 : (1 : ℚ) - x ≠ 0 := sub_ne_zero.mpr (Ne.symm hx)
    have hth : (lif_parameters n).2.2 = threshold_current n := rfl
    constructor
    · rw [hth]
      field_simp
      ring
    · ring
  · intro hexc
    unfold gain_bias
    rw [if_pos hexc]

/-- Concrete LIF parameters for witnesses: `C_som = 1`, `g_leak_som = 1`,
`E_rev_leak = 0`, `tau_ref = 1`, `tau_spike = 0`, `v_th = 1`,
`v_reset = 0`, `v_spike = 2`; so `i_th = 1` and the maximally attainable
rate is `1`. -/
def lifWitnessParams : LIFParams := ⟨1, 1, 0, 1, 0, 1, 0, 2⟩

theorem lif_gain_bias_solves_witness :
    (∃ gain bias,
      gain_bias (fun a _ _ => a + 1) lifWitnessParams [1/2] [0] =
        .ok (gain, bias) ∧
      ∀ i, i < ([1/2] : List ℚ).length → ([0] : List ℚ).getD i 0 ≠ 1 →
        gain.getD i 0 * ([0] : List ℚ).getD i 0 + bias.getD i 0 =
          threshold_current lifWitnessParams ∧
        gain.getD i 0 + bias.getD i 0 =
          lif_rate_inv_current (fun a _ _ => a + 1) lifWitnessParams
            (([1/2] : List ℚ).getD i 0)) ∧
    gain_bias (fun a _ _ => a + 1) lifWitnessParams [2] [0] =
      .error .validationError := by
  constructor
  · exact (lif_gain_bias_solves (fun a _ _ => a + 1) lifWitnessParams
      [1/2] [0] rfl).1
      (by norm_num [max_rate_excess, lif_parameters, lifWitnessParams])
  · exact (lif_gain_bias_solves (fun a _ _ => a + 1) lifWitnessParams
      [2] [0] rfl).2
      (by norm_num [max_rate_excess, lif_parameters, lifWitnessParams])

/-- C7 (counterexample to the claim as stated): the claim quantifies over
every intercepts array, but at an intercept of exactly 1 the linear
system is singular: the code computes `gain = (i_max - i_th)/(1 - 1)`
(numpy: `±inf`/`nan`, with `bias` following suit; in the exact-ℚ model,
division by zero), and the equation `i_th = gain*intercept + bias` fails.
The requested rate `1/2` is below the maximally attainable rate `1`, so
the claim's own hypothesis holds at this input.  The rate inverse is
instantiated with a function whose value at `1/2` exceeds 1, as the
closed-form LIF rate inverse does at every positive rate, making
`i_max ≠ i_th`; numpy's non-finite `gain`/`bias` violate both equations
regardless. -/
theorem lif_gain_bias_intercept_one_fails :
    ¬ max_rate_excess lifWitnessParams [1/2] ∧
    ∃ gain bias,
      gain_bias (fun a _ _ => a + 1) lifWitnessParams [1/2] [1] =
        .ok (gain, bias) ∧
      ¬ (gain.getD 0 0 * ([1] : List ℚ).getD 0 0 + bias.getD 0 0 =
          threshold_current lifWitnessParams) := by
  have hexc : ¬ max_rate_excess lifWitnessParams [1/2] := by
    norm_num [max_rate_excess, lif_parameters, lifWitnessParams]
  refine ⟨hexc, [0], [3/2], ?_, ?_⟩
  · unfold gain_bias
    rw [if_neg hexc]
    norm_num [lif_rate_inv_current, lif_parameters, threshold_current,
      lifWitnessParams]
  · norm_num [threshold_current, lifWitnessParams]

/-- C9 (evidence): at `gain = [0]`, `bias = [0]` the derived intercept is
non-finite (division by zero), so the non-finite-intercepts branch of
`LIF.max_rates_intercepts` is taken — the branch whose `warnings.warn`
call raises `NameError` because `neurons.py` never imports `warnings`,
aborting instead of surfacing a warning and returning. -/
theorem max_rates_intercepts_nonfinite_aborts :
    (max_rates_intercepts (fun j => j) lifWitnessParams [0] [0]).2.2 =
      true ∧
    (max_rates_intercepts (fun j => j) lifWitnessParams [0] [0]).2.1 =
      [none] := by
  constructor <;> rfl

/-! ## Population algebra: multi-ensemble evaluation points

Embedding of `get_multi_ensemble_eval_points` from
`src/nengo_bio/builder/connection.py` (lines 33-90).  The `MultiEnsemble`
class itself (operators `OP_NONE`, `OP_STACK`, `OP_JOIN` over `objs`) lives
in `nengo_bio/common.py`/`ensemble.py`, not under `src/`; following the
spec's data model (section 3) we represent it as a tree whose leaves carry
the wrapped base ensemble's evaluation points (`model.params[obj].eval_points`).

`rng.randint(0, A.shape[0], n)` produces `n` independent draws from
`[0, A.shape[0])`; we model the random source as an arbitrary stream
`g : ℕ → ℕ` consumed at increasing positions, each draw reduced modulo the
number of rows, so every theorem quantifies over all possible outcomes. -/

mutual

/-- A `MultiEnsemble` tree: `base` is `OP_NONE` wrapping one base ensemble
(carrying that ensemble's evaluation points), `stack`/`join` are
`OP_STACK`/`OP_JOIN` over the child list `objs`. -/
inductive MultiEnsemble where
  | base (pnts : Mat)
  | stack (objs : MEList)
  | join (objs : MEList)

/-- The list of children of a stack/join node. -/
inductive MEList where
  | nil
  | cons (m : MultiEnsemble) (rest : MEList)

end

/-- `choice(A, n) = A[rng.randint(0, A.shape[0], n)]`: `n` rows drawn from
`A` with replacement, the draws supplied by the stream `g` starting at
position `k`. -/
def choice (g : ℕ → ℕ) (k : ℕ) (A : Mat) (n : ℕ) : Mat :=
  (List.range n).map fun j => A.getD (g (k + j) % A.length) []

/-- `max(n_pnts)`: the largest row count among the children's returned
point sets. -/
def maxLen (ps : List Mat) : ℕ :=
  (ps.map List.length).foldr max 0

/-- The rows written for one child of a STACK node
(connection.py lines 71-85): if `n_eval_points >= max_n_pnts` the child's
own rows are kept and the remaining rows are filled with
`choice(p, n_eval_points - n_pnts)`; otherwise `n_eval_points` rows are
drawn from the child. -/
def stackFillChild (g : ℕ → ℕ) (k : ℕ) (p : Mat) (n_eval max_n : ℕ) :
    Mat × ℕ :=
  if max_n ≤ n_eval then
    (p ++ choice g k p (n_eval - p.length), k + (n_eval - p.length))
  else
    (choice g k p n_eval, k + n_eval)

/-- All per-child column blocks of a STACK node, threading the random
stream position through the children in order. -/
def stackBlocks (g : ℕ → ℕ) (k : ℕ) (ps : List Mat) (n_eval max_n : ℕ) :
    List Mat × ℕ :=
  match ps with
  | [] => ([], k)
  | p :: rest =>
    let b := stackFillChild g k p n_eval max_n
    let bs := stackBlocks g b.2 rest n_eval max_n
    (b.1 :: bs.1, bs.2)

/-- Writing the per-child column blocks side by side into the output array
`np.empty((max_n_pnts, dims))`: row `j` of the result is the concatenation
of row `j` of every block.  (numpy rejects the assignment if a block's row
count differs from the array's; the well-formedness lemmas below show the
counts agree on all reachable inputs, where this is plain horizontal
concatenation.) -/
def hstackAllH (h : ℕ) (bs : List Mat) : Mat :=
  bs.foldr (fun b acc => List.zipWith (· ++ ·) b acc) (List.replicate h [])

mutual

/-- `get_multi_ensemble_eval_points(model, mens, rng, n_eval_points)`
(connection.py lines 33-90).  Returns the evaluation-point matrix together
with the next unused random-stream position. -/
def evalPoints (g : ℕ → ℕ) (m : MultiEnsemble) (k : ℕ) (nOpt : Option ℕ) :
    Mat × ℕ :=
  match m with
  | .base pnts =>
    match nOpt with
    | none => (pnts, k)
    | some n => (choice g k pnts n, k + n)
  | .stack objs =>
    let r := evalPointsMany g objs k nOpt
    let b := stackBlocks g r.2 r.1 (nOpt.getD (maxLen r.1)) (maxLen r.1)
    (hstackAllH (maxLen r.1) b.1, b.2)
  | .join objs =>
    let r := evalPointsMany g objs k nOpt
    (choice g r.2 r.1.flatten (nOpt.getD (maxLen r.1)),
     r.2 + nOpt.getD (maxLen r.1))

/-- The recursive fetch of every child's evaluation points
(connection.py lines 54-59). -/
def evalPointsMany (g : ℕ → ℕ) (ms : MEList) (k : ℕ) (nOpt : Option ℕ) :
    List Mat × ℕ :=
  match ms with
  | .nil => ([], k)
  | .cons m rest =>
    let p := evalPoints g m k nOpt
    let ps := evalPointsMany g rest p.2 nOpt
    (p.1 :: ps.1, ps.2)

end

mutual

/-- The `dimensions` attribute of a `MultiEnsemble` (spec section 3): the
base ensemble's own dimensionality (the width of its evaluation points),
the sum of the children's dimensions for STACK, the shared dimensionality
for JOIN. -/
def dims : MultiEnsemble → ℕ
  | .base pnts => (pnts.headD []).length
  | .stack objs => dimsSum objs
  | .join objs => dimsFirst objs

def dimsSum : MEList → ℕ
  | .nil => 0
  | .cons m rest => dims m + dimsSum rest

def dimsFirst : MEList → ℕ
  | .nil => 0
  | .cons m _ => dims m

def dimsList : MEList → List ℕ
  | .nil => []
  | .cons m rest => dims m :: dimsList rest

end

/-- All children report the given dimensionality (the JOIN construction
invariant). -/
def allDimsEq : MEList → ℕ → Bool
  | .nil, _ => true
  | .cons m rest, d => (dims m == d) && allDimsEq rest d

/-- Whether a child list is empty. -/
def MEList.isNil' : MEList → Bool
  | .nil => true
  | .cons _ _ => false

mutual

/-- Well-formedness of a `MultiEnsemble` tree: base ensembles have a
nonempty rectangular evaluation-point matrix, stack/join nodes have at
least one child, and a JOIN's children share one dimensionality — the
invariants the host construction (`nengo_bio` ensembles and the
`MultiEnsemble` constructor) guarantees. -/
def wf : MultiEnsemble → Bool
  | .base pnts =>
    !pnts.isEmpty && pnts.all fun r => r.length == (pnts.headD []).length
  | .stack objs => !objs.isNil' && wfAll objs
  | .join objs =>
    !objs.isNil' && allDimsEq objs (dimsFirst objs) && wfAll objs

def wfAll : MEList → Bool
  | .nil => true
  | .cons m rest => wf m && wfAll rest

end

theorem range_getD (n j : ℕ) (hj : j < n) : (List.range n).getD j 0 = j := by
  rw [List.getD_eq_getElem _ _ (by simpa using hj)]
  simp

theorem choice_length (g : ℕ → ℕ) (k : ℕ) (A : Mat) (n : ℕ) :
    (choice g k A n).length = n := by
  simp [choice]

theorem choice_getD (g : ℕ → ℕ) (k : ℕ) (A : Mat) (n j : ℕ) (hj : j < n) :
    (choice g k A n).getD j [] = A.getD (g (k + j) % A.length) [] := by
  unfold choice
  rw [getD_map _ _ _ _ 0 (by simpa using hj), range_getD n j hj]

theorem getD_mem_of_ne_nil {A : Mat} (hA : A ≠ []) (i : ℕ) :
    A.getD (i % A.length) [] ∈ A := by
  have hlt : i % A.length < A.length := Nat.mod_lt _ (List.length_pos.mpr hA)
  rw [List.getD_eq_getElem _ _ hlt]
  exact List.getElem_mem hlt

theorem mem_choice {g : ℕ → ℕ} {k : ℕ} {A : Mat} {n : ℕ} {row : List ℚ}
    (hA : A ≠ []) (h : row ∈ choice g k A n) : row ∈ A := by
  unfold choice at h
  simp only [List.mem_map, List.mem_range] at h
  obtain ⟨j, hj, rfl⟩ := h
  exact getD_mem_of_ne_nil hA _

theorem choice_getD_mem (g : ℕ → ℕ) (k : ℕ) (A : Mat) (n j : ℕ)
    (hA : A ≠ []) (hj : j < n) : (choice g k A n).getD j [] ∈ A := by
  rw [choice_getD g k A n j hj]
  exact getD_mem_of_ne_nil hA _

theorem maxLen_cons (q : Mat) (qs : List Mat) :
    maxLen (q :: qs) = max q.length (maxLen qs) := rfl

theorem le_maxLen {ps : List Mat} {p : Mat} (hp : p ∈ ps) :
    p.length ≤ maxLen ps := by
  induction ps with
  | nil => simp at hp
  | cons q qs ih =>
    rw [maxLen_cons]
    rcases List.mem_cons.mp hp with rfl | h
    · exact le_max_left _ _
    · exact le_trans (ih h) (le_max_right _ _)

theorem maxLen_eq_of_all {ps : List Mat} {n : ℕ} (hne : ps ≠ [])
    (h : ∀ p ∈ ps, p.length = n) : maxLen ps = n := by
  induction ps with
  | nil => exact absurd rfl hne
  | cons q qs ih =>
    rw [maxLen_cons, h q (List.mem_cons_self q qs)]
    cases qs with
    | nil => simp [maxLen]
    | cons r rs =>
      rw [ih (by simp) fun p hp => h p (List.mem_cons_of_mem _ hp)]
      simp

theorem foldr_min_const {l : List ℕ} {v s : ℕ} (hne : l ≠ [])
    (h : ∀ x ∈ l, x = v) : l.foldr min s = min v s := by
  induction l with
  | nil => exact absurd rfl hne
  | cons x xs ih =>
    rcases eq_or_ne xs [] with rfl | hxs
    · simp [h x (by simp)]
    · simp only [List.foldr_cons,
        ih hxs fun y hy => h y (List.mem_cons_of_mem _ hy),
        h x (List.mem_cons_self x xs)]
      rw [← min_assoc, min_self]

theorem stackFillChild_length (g : ℕ → ℕ) (k : ℕ) {p : Mat}
    {n_eval max_n : ℕ} (hle : p.length ≤ n_eval) :
    ((stackFillChild g k p n_eval max_n).1).length = n_eval := by
  unfold stackFillChild
  split
  · simp only [List.length_append, choice_length]
    omega
  · exact choice_length _ _ _ _

theorem stackFillChild_getD_lt (g : ℕ → ℕ) (k : ℕ) {p : Mat}
    {n_eval max_n j : ℕ} (hmn : max_n ≤ n_eval) (hj : j < p.length) :
    ((stackFillChild g k p n_eval max_n).1).getD j [] = p.getD j [] := by
  unfold stackFillChild
  rw [if_pos hmn]
  exact List.getD_append _ _ _ _ hj

theorem stackFillChild_getD_ge (g : ℕ → ℕ) (k : ℕ) {p : Mat}
    {n_eval max_n j : ℕ} (hmn : max_n ≤ n_eval) (hp : p ≠ [])
    (hlo : p.length ≤ j) (hj : j < n_eval) :
    ((stackFillChild g k p n_eval max_n).1).getD j [] ∈ p := by
  unfold stackFillChild
  rw [if_pos hmn, List.getD_append_right _ _ _ _ hlo]
  exact choice_getD_mem _ _ _ _ _ hp (by omega)

theorem mem_stackFillChild {g : ℕ → ℕ} {k : ℕ} {p : Mat}
    {n_eval max_n : ℕ} {row : List ℚ} (hp : p ≠ [])
    (h : row ∈ (stackFillChild g k p n_eval max_n).1) : row ∈ p := by
  unfold stackFillChild at h
  split at h
  · rcases List.mem_append.mp h with h | h
    · exact h
    · exact mem_choice hp h
  · exact mem_choice hp h

theorem stackFillChild_nil_zero (g : ℕ → ℕ) (k max_n : ℕ) :
    (stackFillChild g k ([] : Mat) 0 max_n).1 = [] := by
  unfold stackFillChild
  split <;> rfl

theorem stackBlocks_length (g : ℕ → ℕ) (k : ℕ) (ps : List Mat)
    (n_eval max_n : ℕ) :
    ((stackBlocks g k ps n_eval max_n).1).length = ps.length := by
  induction ps generalizing k with
  | nil => rfl
  | cons p rest ih => simp [stackBlocks, ih]

theorem stackBlocks_getD (g : ℕ → ℕ) {ps : List Mat} (k : ℕ)
    {n_eval max_n i : ℕ} (hi : i < ps.length) :
    ∃ k2, ((stackBlocks g k ps n_eval max_n).1).getD i [] =
      (stackFillChild g k2 (ps.getD i []) n_eval max_n).1 := by
  induction ps generalizing k i with
  | nil => simp at hi
  | cons p rest ih =>
    cases i with
    | zero => exact ⟨k, rfl⟩
    | succ i => exact ih _ (Nat.lt_of_succ_lt_succ hi)

theorem mem_stackBlocks {g : ℕ → ℕ} {k : ℕ} {ps : List Mat}
    {n_eval max_n : ℕ} {b : Mat}
    (h : b ∈ (stackBlocks g k ps n_eval max_n).1) :
    ∃ p ∈ ps, ∃ k2, b = (stackFillChild g k2 p n_eval max_n).1 := by
  induction ps generalizing k with
  | nil => simp [stackBlocks] at h
  | cons p rest ih =>
    simp only [stackBlocks] at h
    rcases List.mem_cons.mp h with rfl | h
    · exact ⟨p, by simp, k, rfl⟩
    · obtain ⟨q, hq, k2, rfl⟩ := ih h
      exact ⟨q, by simp [hq], k2, rfl⟩

theorem hstackAllH_nil (h : ℕ) : hstackAllH h [] = List.replicate h [] := rfl

theorem hstackAllH_cons (h : ℕ) (b : Mat) (bs : List Mat) :
    hstackAllH h (b :: bs) = List.zipWith (· ++ ·) b (hstackAllH h bs) :=
  rfl

theorem hstackAllH_length (h : ℕ) (bs : List Mat) :
    (hstackAllH h bs).length = (bs.map List.length).foldr min h := by
  induction bs with
  | nil => simp [hstackAllH]
  | cons b bs ih => simp [hstackAllH_cons, List.length_zipWith, ih]

theorem hstackAllH_length_const {bs : List Mat} {n : ℕ} (hne : bs ≠ [])
    (hlen : ∀ b ∈ bs, b.length = n) (h : ℕ) (hn : n ≤ h) :
    (hstackAllH h bs).length = n := by
  rw [hstackAllH_length,
    foldr_min_const (by simpa using hne)
      (by simpa using fun b hb => hlen b hb)]
  omega

theorem hstackAllH_getD_cons (h : ℕ) (b : Mat) (bs : List Mat) (j : ℕ)
    (hb : j < b.length) (hacc : j < (hstackAllH h bs).length) :
    (hstackAllH h (b :: bs)).getD j [] =
      b.getD j [] ++ (hstackAllH h bs).getD j [] := by
  rw [hstackAllH_cons]
  exact getD_zipWith _ _ _ _ _ _ _ hb hacc

theorem mem_zipWith_append {b acc : Mat} {row : List ℚ}
    (h : row ∈ List.zipWith (· ++ ·) b acc) :
    ∃ x ∈ b, ∃ y ∈ acc, row = x ++ y := by
  induction b generalizing acc with
  | nil => simp at h
  | cons x xs ih =>
    cases acc with
    | nil => simp at h
    | cons y ys =>
      simp only [List.zipWith_cons_cons] at h
      rcases List.mem_cons.mp h with rfl | h
      · exact ⟨x, by simp, y, by simp, rfl⟩
      · obtain ⟨x2, hx, y2, hy, rfl⟩ := ih h
        exact ⟨x2, by simp [hx], y2, by simp [hy], rfl⟩

theorem hstackAllH_row_length {ds : List ℕ} {bs : List Mat}
    (hF : List.Forall₂ (fun d b => ∀ r ∈ b, r.length = d) ds bs)
    (h : ℕ) : ∀ row ∈ hstackAllH h bs, row.length = ds.sum := by
  induction hF with
  | nil =>
    intro row hrow
    rw [hstackAllH_nil] at hrow
    simp [List.eq_of_mem_replicate hrow]
  | @cons d b ds bs h1 h2 ih =>
    intro row hrow
    rw [hstackAllH_cons] at hrow
    obtain ⟨x, hx, y, hy, rfl⟩ := mem_zipWith_append hrow
    simp [List.length_append, h1 x hx, ih y hy, List.sum_cons]

theorem drop_append_len {α : Type} (l₁ l₂ : List α) (n i : ℕ)
    (h : l₁.length = n) : (l₁ ++ l₂).drop (n + i) = l₂.drop i := by
  subst h
  induction l₁ with
  | nil => simp
  | cons x xs ih =>
    simp [Nat.succ_add, ih]

theorem hstackAllH_slice {ds : List ℕ} {bs : List Mat}
    (hF : List.Forall₂ (fun d b => ∀ r ∈ b, r.length = d) ds bs) (h : ℕ) :
    ∀ i j, i < ds.length → j < (hstackAllH h bs).length →
      (((hstackAllH h bs).getD j []).drop ((ds.take i).sum)).take
          (ds.getD i 0) =
        (bs.getD i []).getD j [] := by
  induction hF with
  | nil => intro i j hi hj; simp at hi
  | @cons d b ds bs h1 h2 ih =>
    intro i j hi hj
    have hlen : (hstackAllH h (b :: bs)).length =
        min b.length (hstackAllH h bs).length := by
      rw [hstackAllH_cons, List.length_zipWith]
    have hjb : j < b.length := by omega
    have hjacc : j < (hstackAllH h bs).length := by omega
    rw [hstackAllH_getD_cons h b bs j hjb hjacc]
    have hbj : (b.getD j []).length = d := by
      refine h1 _ ?_
      rw [List.getD_eq_getElem _ _ hjb]
      exact List.getElem_mem hjb
    cases i with
    | zero =>
      simp only [List.take_zero, List.sum_nil, List.drop_zero,
        List.getD_cons_zero]
      exact List.take_left' hbj
    | succ i =>
      simp only [List.take_succ_cons, List.sum_cons, List.getD_cons_succ]
      rw [drop_append_len _ _ _ _ hbj]
      exact ih i j (Nat.lt_of_succ_lt_succ hi) hjacc

theorem dimsList_sum : ∀ ms : MEList, (dimsList ms).sum = dimsSum ms
  | .nil => rfl
  | .cons m rest => by simp [dimsList, dimsSum, dimsList_sum rest]

theorem allDimsEq_mem :
    ∀ (ms : MEList) (d : ℕ), allDimsEq ms d = true →
      ∀ x ∈ dimsList ms, x = d
  | .nil, d, h => by simp [dimsList]
  | .cons m rest, d, h => by
    obtain ⟨h1, h2⟩ : (dims m == d) = true ∧ allDimsEq rest d = true := by
      simpa [allDimsEq, Bool.and_eq_true] using h
    intro x hx
    rcases List.mem_cons.mp (by simpa [dimsList] using hx) with rfl | hx
    · exact eq_of_beq h1
    · exact allDimsEq_mem rest d h2 x hx

theorem forall₂_mem_right {R : ℕ → Mat → Prop} {ds : List ℕ}
    {ps : List Mat} (h : List.Forall₂ R ds ps) {p : Mat} (hp : p ∈ ps) :
    ∃ d ∈ ds, R d p := by
  induction h with
  | nil => simp at hp
  | @cons d q ds qs h1 h2 ih =>
    rcases List.mem_cons.mp hp with rfl | hp
    · exact ⟨d, by simp, h1⟩
    · obtain ⟨d2, hd2, hR⟩ := ih hp
      exact ⟨d2, by simp [hd2], hR⟩

theorem stackBlocks_rect (g : ℕ → ℕ) {ds : List ℕ} {ps : List Mat}
    (nev mn : ℕ)
    (hF : List.Forall₂ (fun d p => ∀ r ∈ p, r.length = d) ds ps)
    (hcond : ∀ p ∈ ps, p ≠ [] ∨ nev = 0) :
    ∀ k, List.Forall₂ (fun d b => ∀ r ∈ b, r.length = d) ds
      (stackBlocks g k ps nev mn).1 := by
  induction hF with
  | nil =>
    intro k
    exact List.Forall₂.nil
  | @cons d p ds ps h1 h2 ih =>
    intro k
    simp only [stackBlocks]
    refine List.Forall₂.cons ?_
      (ih (fun q hq => hcond q (List.mem_cons_of_mem _ hq)) _)
    intro r hr
    by_cases hp : p = []
    · subst hp
      rcases hcond [] (by simp) with hc | hc
      · exact absurd rfl hc
      · rw [hc, stackFillChild_nil_zero] at hr
        simp at hr
    · exact h1 r (mem_stackFillChild hp hr)

mutual

theorem evalPoints_length_some :
    ∀ (g : ℕ → ℕ) (m : MultiEnsemble) (k n : ℕ), wf m = true →
      ((evalPoints g m k (some n)).1).length = n
  | g, .base pnts, k, n, hwf => by simp [evalPoints, choice_length]
  | g, .stack objs, k, n, hwf => by
    obtain ⟨hnil, hall⟩ : objs.isNil' = false ∧ wfAll objs = true := by
      simpa [wf, Bool.and_eq_true, Bool.not_eq_true'] using hwf
    have hmem : ∀ p ∈ (evalPointsMany g objs k (some n)).1, p.length = n :=
      evalPointsMany_length_some g objs k n hall
    have hne : (evalPointsMany g objs k (some n)).1 ≠ [] := by
      cases objs with
      | nil => simp [MEList.isNil'] at hnil
      | cons m rest => simp [evalPointsMany]
    have hmax : maxLen (evalPointsMany g objs k (some n)).1 = n :=
      maxLen_eq_of_all hne hmem
    simp only [evalPoints, Option.getD_some]
    rw [hmax]
    refine hstackAllH_length_const ?_ ?_ n le_rfl
    · have hsb := stackBlocks_length g (evalPointsMany g objs k (some n)).2
        (evalPointsMany g objs k (some n)).1 n n
      intro hc
      rw [hc] at hsb
      exact hne (List.length_eq_zero.mp hsb.symm)
    · intro b hb
      obtain ⟨p, hp, k2, rfl⟩ := mem_stackBlocks hb
      exact stackFillChild_length g k2 (le_of_eq (hmem p hp))
  | g, .join objs, k, n, hwf => by simp [evalPoints, choice_length]

theorem evalPointsMany_length_some :
    ∀ (g : ℕ → ℕ) (ms : MEList) (k n : ℕ), wfAll ms = true →
      ∀ p ∈ (evalPointsMany g ms k (some n)).1, p.length = n
  | g, .nil, k, n, hwf => by simp [evalPointsMany]
  | g, .cons m rest, k, n, hwf => by
    obtain ⟨h1, h2⟩ : wf m = true ∧ wfAll rest = true := by
      simpa [wfAll, Bool.and_eq_true] using hwf
    intro p hp
    simp only [evalPointsMany] at hp
    rcases List.mem_cons.mp hp with rfl | hp
    · exact evalPoints_length_some g m k n h1
    · exact evalPointsMany_length_some g rest _ n h2 p hp

end

mutual

theorem evalPoints_ne_nil_none :
    ∀ (g : ℕ → ℕ) (m : MultiEnsemble) (k : ℕ), wf m = true →
      (evalPoints g m k none).1 ≠ []
  | g, .base pnts, k, hwf => by
    obtain ⟨hne, _⟩ : pnts.isEmpty = false ∧ _ := by
      simpa [wf, Bool.and_eq_true, Bool.not_eq_true'] using hwf
    simp only [evalPoints]
    intro hc
    rw [hc] at hne
    simp at hne
  | g, .stack objs, k, hwf => by
    obtain ⟨hnil, hall⟩ : objs.isNil' = false ∧ wfAll objs = true := by
      simpa [wf, Bool.and_eq_true, Bool.not_eq_true'] using hwf
    have hmem : ∀ p ∈ (evalPointsMany g objs k none).1, p ≠ [] :=
      evalPointsMany_ne_nil_none g objs k hall
    have hne : (evalPointsMany g objs k none).1 ≠ [] := by
      cases objs with
      | nil => simp [MEList.isNil'] at hnil
      | cons m rest => simp [evalPointsMany]
    obtain ⟨p₀, hp₀⟩ := List.exists_mem_of_ne_nil _ hne
    have hpos : 0 < maxLen (evalPointsMany g objs k none).1 :=
      lt_of_lt_of_le (List.length_pos.mpr (hmem p₀ hp₀)) (le_maxLen hp₀)
    simp only [evalPoints, Option.getD_none]
    have hlen : (hstackAllH (maxLen (evalPointsMany g objs k none).1)
        (stackBlocks g (evalPointsMany g objs k none).2
          (evalPointsMany g objs k none).1
          (maxLen (evalPointsMany g objs k none).1)
          (maxLen (evalPointsMany g objs k none).1)).1).length =
        maxLen (evalPointsMany g objs k none).1 := by
      refine hstackAllH_length_const ?_ ?_ _ le_rfl
      · have hsb := stackBlocks_length g (evalPointsMany g objs k none).2
          (evalPointsMany g objs k none).1
          (maxLen (evalPointsMany g objs k none).1)
          (maxLen (evalPointsMany g objs k none).1)
        intro hc
        rw [hc] at hsb
        exact hne (List.length_eq_zero.mp hsb.symm)
      · intro b hb
        obtain ⟨p, hp, k2, rfl⟩ := mem_stackBlocks hb
        exact stackFillChild_length g k2 (le_maxLen hp)
    intro hc
    rw [hc] at hlen
    simp only [List.length_nil] at hlen
    omega
  | g, .join objs, k, hwf => by
    obtain ⟨⟨hnil, _⟩, hall⟩ :
        (objs.isNil' = false ∧ allDimsEq objs (dimsFirst objs) = true) ∧
          wfAll objs = true := by
      simpa [wf, Bool.and_eq_true, Bool.not_eq_true', and_assoc] using hwf
    have hmem : ∀ p ∈ (evalPointsMany g objs k none).1, p ≠ [] :=
      evalPointsMany_ne_nil_none g objs k hall
    have hne : (evalPointsMany g objs k none).1 ≠ [] := by
      cases objs with
      | nil => simp [MEList.isNil'] at hnil
      | cons m rest => simp [evalPointsMany]
    obtain ⟨p₀, hp₀⟩ := List.exists_mem_of_ne_nil _ hne
    have hpos : 0 < maxLen (evalPointsMany g objs k none).1 :=
      lt_of_lt_of_le (List.length_pos.mpr (hmem p₀ hp₀)) (le_maxLen hp₀)
    simp only [evalPoints, Option.getD_none]
    intro hc
    have hclen := choice_length g (evalPointsMany g objs k none).2
      ((evalPointsMany g objs k none).1).flatten
      (maxLen (evalPointsMany g objs k none).1)
    rw [hc] at hclen
    simp only [List.length_nil] at hclen
    omega

theorem evalPointsMany_ne_nil_none :
    ∀ (g : ℕ → ℕ) (ms : MEList) (k : ℕ), wfAll ms = true →
      ∀ p ∈ (evalPointsMany g ms k none).1, p ≠ []
  | g, .nil, k, hwf => by simp [evalPointsMany]
  | g, .cons m rest, k, hwf => by
    obtain ⟨h1, h2⟩ : wf m = true ∧ wfAll rest = true := by
      simpa [wfAll, Bool.and_eq_true] using hwf
    intro p hp
    simp only [evalPointsMany] at hp
    rcases List.mem_cons.mp hp with rfl | hp
    · exact evalPoints_ne_nil_none g m k h1
    · exact evalPointsMany_ne_nil_none g rest _ h2 p hp

end

mutual

theorem evalPoints_rect :
    ∀ (g : ℕ → ℕ) (m : MultiEnsemble) (k : ℕ) (nOpt : Option ℕ),
      wf m = true →
      ∀ row ∈ (evalPoints g m k nOpt).1, row.length = dims m
  | g, .base pnts, k, nOpt, hwf => by
    obtain ⟨hne, hrect⟩ : pnts.isEmpty = false ∧
        pnts.all (fun r => r.length == (pnts.headD []).length) = true := by
      simpa [wf, Bool.and_eq_true, Bool.not_eq_true'] using hwf
    have hrect' : ∀ r ∈ pnts, r.length = (pnts.headD []).length :=
      fun r hr => eq_of_beq (List.all_eq_true.mp hrect r hr)
    have hpne : pnts ≠ [] := by
      intro hc
      rw [hc] at hne
      simp at hne
    intro row hrow
    show row.length = (pnts.headD []).length
    cases nOpt with
    | none => exact hrect' row (by simpa [evalPoints] using hrow)
    | some n =>
      exact hrect' row (mem_choice hpne (by simpa [evalPoints] using hrow))
  | g, .stack objs, k, nOpt, hwf => by
    obtain ⟨hnil, hall⟩ : objs.isNil' = false ∧ wfAll objs = true := by
      simpa [wf, Bool.and_eq_true, Bool.not_eq_true'] using hwf
    have hF := evalPointsMany_rect g objs k nOpt hall
    have hcond : ∀ p ∈ (evalPointsMany g objs k nOpt).1,
        p ≠ [] ∨ nOpt.getD (maxLen (evalPointsMany g objs k nOpt).1) = 0 := by
      cases nOpt with
      | none =>
        intro p hp
        exact Or.inl (evalPointsMany_ne_nil_none g objs k hall p hp)
      | some n =>
        intro p hp
        have hl := evalPointsMany_length_some g objs k n hall p hp
        by_cases hn : n = 0
        · right
          rw [hn, Option.getD_some]
        · left
          intro hc
          rw [hc] at hl
          simp only [List.length_nil] at hl
          exact hn hl.symm
    have hbl := stackBlocks_rect g
      (nOpt.getD (maxLen (evalPointsMany g objs k nOpt).1))
      (maxLen (evalPointsMany g objs k nOpt).1) hF hcond
      (evalPointsMany g objs k nOpt).2
    intro row hrow
    simp only [evalPoints] at hrow
    have hrl := hstackAllH_row_length hbl
      (maxLen (evalPointsMany g objs k nOpt).1) row hrow
    show row.length = dimsSum objs
    rw [← dimsList_sum]
    exact hrl
  | g, .join objs, k, nOpt, hwf => by
    obtain ⟨⟨hnil, hdims⟩, hall⟩ :
        (objs.isNil' = false ∧ allDimsEq objs (dimsFirst objs) = true) ∧
          wfAll objs = true := by
      simpa [wf, Bool.and_eq_true, Bool.not_eq_true', and_assoc] using hwf
    have hF := evalPointsMany_rect g objs k nOpt hall
    intro row hrow
    simp only [evalPoints] at hrow
    have hflat : ((evalPointsMany g objs k nOpt).1).flatten ≠ [] ∨
        nOpt.getD (maxLen (evalPointsMany g objs k nOpt).1) = 0 := by
      cases nOpt with
      | none =>
        left
        have hne : (evalPointsMany g objs k none).1 ≠ [] := by
          cases objs with
          | nil => simp [MEList.isNil'] at hnil
          | cons m rest => simp [evalPointsMany]
        obtain ⟨p₀, hp₀⟩ := List.exists_mem_of_ne_nil _ hne
        have hp₀ne : p₀ ≠ [] := evalPointsMany_ne_nil_none g objs k hall p₀ hp₀
        obtain ⟨r₀, hr₀⟩ := List.exists_mem_of_ne_nil _ hp₀ne
        exact List.ne_nil_of_mem (List.mem_flatten_of_mem hp₀ hr₀)
      | some n =>
        by_cases hn : n = 0
        · right
          rw [hn, Option.getD_some]
        · left
          have hne : (evalPointsMany g objs k (some n)).1 ≠ [] := by
            cases objs with
            | nil => simp [MEList.isNil'] at hnil
            | cons m rest => simp [evalPointsMany]
          obtain ⟨p₀, hp₀⟩ := List.exists_mem_of_ne_nil _ hne
          have hp₀len := evalPointsMany_length_some g objs k n hall p₀ hp₀
          have hp₀ne : p₀ ≠ [] := by
            intro hc
            rw [hc] at hp₀len
            simp only [List.length_nil] at hp₀len
            exact hn hp₀len.symm
          obtain ⟨r₀, hr₀⟩ := List.exists_mem_of_ne_nil _ hp₀ne
          exact List.ne_nil_of_mem (List.mem_flatten_of_mem hp₀ hr₀)
    rcases hflat with hflat | hzero
    · have hrowflat := mem_choice hflat hrow
      obtain ⟨p, hp, hrp⟩ := List.mem_flatten.mp hrowflat
      obtain ⟨d, hd, hR⟩ := forall₂_mem_right hF hp
      have hdd : d = dimsFirst objs := allDimsEq_mem objs _ hdims d hd
      show row.length = dimsFirst objs
      rw [← hdd]
      exact hR row hrp
    · rw [hzero] at hrow
      simp [choice] at hrow

theorem evalPointsMany_rect :
    ∀ (g : ℕ → ℕ) (ms : MEList) (k : ℕ) (nOpt : Option ℕ),
      wfAll ms = true →
      List.Forall₂ (fun d p => ∀ r ∈ p, r.length = d) (dimsList ms)
        (evalPointsMany g ms k nOpt).1
  | g, .nil, k, nOpt, hwf => List.Forall₂.nil
  | g, .cons m rest, k, nOpt, hwf => by
    obtain ⟨h1, h2⟩ : wf m = true ∧ wfAll rest = true := by
      simpa [wfAll, Bool.and_eq_true] using hwf
    simp only [evalPointsMany, dimsList]
    exact List.Forall₂.cons (evalPoints_rect g m k nOpt h1)
      (evalPointsMany_rect g rest _ nOpt h2)

end

theorem stack_eval_points_length (g : ℕ → ℕ) (objs : MEList) (k : ℕ)
    (nOpt : Option ℕ) (hwf : wf (.stack objs) = true) :
    ((evalPoints g (.stack objs) k nOpt).1).length =
      nOpt.getD (maxLen (evalPointsMany g objs k nOpt).1) := by
  cases nOpt with
  | some n =>
    rw [Option.getD_some]
    exact evalPoints_length_some g _ k n hwf
  | none =>
    obtain ⟨hnil, hall⟩ : objs.isNil' = false ∧ wfAll objs = true := by
      simpa [wf, Bool.and_eq_true, Bool.not_eq_true'] using hwf
    have hne : (evalPointsMany g objs k none).1 ≠ [] := by
      cases objs with
      | nil => simp [MEList.isNil'] at hnil
      | cons m rest => simp [evalPointsMany]
    simp only [evalPoints, Option.getD_none]
    refine hstackAllH_length_const ?_ ?_ _ le_rfl
    · have hsb := stackBlocks_length g (evalPointsMany g objs k none).2
        (evalPointsMany g objs k none).1
        (maxLen (evalPointsMany g objs k none).1)
        (maxLen (evalPointsMany g objs k none).1)
      intro hc
      rw [hc] at hsb
      exact hne (List.length_eq_zero.mp hsb.symm)
    · intro b hb
      obtain ⟨p, hp, k2, rfl⟩ := mem_stackBlocks hb
      exact stackFillChild_length g k2 (le_maxLen hp)

/-- C5: for every STACK node, the evaluation-point matrix returned by
`get_multi_ensemble_eval_points` has exactly the target number of rows
(`n_eval_points` when requested, else the maximum row count over the
children); the children's column blocks, placed at the prefix-sum offsets
of the preceding children's dimensions, exactly tile `[0, dimensions)`
(the dimensions sum to the node's `dimensions` and every row has exactly
that length); the column slice assigned to child `i` reproduces the
child's own row when the row index is below the child's row count, and is
a row resampled from that child's own point set otherwise. -/
theorem stack_eval_points_spec (g : ℕ → ℕ) (objs : MEList) (k : ℕ)
    (nOpt : Option ℕ) (hwf : wf (.stack objs) = true) :
    ((evalPoints g (.stack objs) k nOpt).1).length =
      nOpt.getD (maxLen (evalPointsMany g objs k nOpt).1) ∧
    (dimsList objs).sum = dims (.stack objs) ∧
    (∀ row ∈ (evalPoints g (.stack objs) k nOpt).1,
      row.length = dims (.stack objs)) ∧
    ∀ i, i < (dimsList objs).length →
      ∀ j, j < ((evalPoints g (.stack objs) k nOpt).1).length →
        (j < ((evalPointsMany g objs k nOpt).1.getD i []).length →
          ((((evalPoints g (.stack objs) k nOpt).1).getD j []).drop
              (((dimsList objs).take i).sum)).take
              ((dimsList objs).getD i 0) =
            ((evalPointsMany g objs k nOpt).1.getD i []).getD j []) ∧
        (((evalPointsMany g objs k nOpt).1.getD i []).length ≤ j →
          ((((evalPoints g (.stack objs) k nOpt).1).getD j []).drop
              (((dimsList objs).take i).sum)).take
              ((dimsList objs).getD i 0) ∈
            (evalPointsMany g objs k nOpt).1.getD i []) := by
  obtain ⟨hnil, hall⟩ : objs.isNil' = false ∧ wfAll objs = true := by
    simpa [wf, Bool.and_eq_true, Bool.not_eq_true'] using hwf
  have hne : (evalPointsMany g objs k nOpt).1 ≠ [] := by
    cases objs with
    | nil => simp [MEList.isNil'] at hnil
    | cons m rest => simp [evalPointsMany]
  have hF := evalPointsMany_rect g objs k nOpt hall
  have hcond : ∀ p ∈ (evalPointsMany g objs k nOpt).1,
      p ≠ [] ∨ nOpt.getD (maxLen (evalPointsMany g objs k nOpt).1) = 0 := by
    cases nOpt with
    | none =>
      intro p hp
      exact Or.inl (evalPointsMany_ne_nil_none g objs k hall p hp)
    | some n =>
      intro p hp
      have hl := evalPointsMany_length_some g objs k n hall p hp
      by_cases hn : n = 0
      · right
        rw [hn, Option.getD_some]
      · left
        intro hc
        rw [hc] at hl
        simp only [List.length_nil] at hl
        exact hn hl.symm
  have hbl := stackBlocks_rect g
    (nOpt.getD (maxLen (evalPointsMany g objs k nOpt).1))
    (maxLen (evalPointsMany g objs k nOpt).1) hF hcond
    (evalPointsMany g objs k nOpt).2
  have hlen1 := stack_eval_points_length g objs k nOpt hwf
  have hmn : maxLen (evalPointsMany g objs k nOpt).1 ≤
      nOpt.getD (maxLen (evalPointsMany g objs k nOpt).1) := by
    cases nOpt with
    | none => exact le_rfl
    | some n =>
      rw [Option.getD_some]
      exact le_of_eq (maxLen_eq_of_all hne
        (evalPointsMany_length_some g objs k n hall))
  have hdslen : (dimsList objs).length =
      (evalPointsMany g objs k nOpt).1.length := hF.length_eq
  refine ⟨hlen1, dimsList_sum objs, evalPoints_rect g _ k nOpt hwf,
    fun i hi j hj => ?_⟩
  have hips : i < (evalPointsMany g objs k nOpt).1.length := hdslen ▸ hi
  have hjres : j < (hstackAllH (maxLen (evalPointsMany g objs k nOpt).1)
      (stackBlocks g (evalPointsMany g objs k nOpt).2
        (evalPointsMany g objs k nOpt).1
        (nOpt.getD (maxLen (evalPointsMany g objs k nOpt).1))
        (maxLen (evalPointsMany g objs k nOpt).1)).1).length := hj
  have hslice := hstackAllH_slice hbl
    (maxLen (evalPointsMany g objs k nOpt).1) i j hi hjres
  have hres : (evalPoints g (.stack objs) k nOpt).1 =
      hstackAllH (maxLen (evalPointsMany g objs k nOpt).1)
        (stackBlocks g (evalPointsMany g objs k nOpt).2
          (evalPointsMany g objs k nOpt).1
          (nOpt.getD (maxLen (evalPointsMany g objs k nOpt).1))
          (maxLen (evalPointsMany g objs k nOpt).1)).1 := by
    simp only [evalPoints]
  obtain ⟨kc, hkc⟩ := @stackBlocks_getD g (evalPointsMany g objs k nOpt).1
    (evalPointsMany g objs k nOpt).2
    (nOpt.getD (maxLen (evalPointsMany g objs k nOpt).1))
    (maxLen (evalPointsMany g objs k nOpt).1) i hips
  have hj2 : j < nOpt.getD (maxLen (evalPointsMany g objs k nOpt).1) := by
    rw [← hlen1]
    exact hj
  constructor
  · intro hjlt
    rw [hres, hslice, hkc]
    exact stackFillChild_getD_lt g kc hmn hjlt
  · intro hge
    rw [hres, hslice, hkc]
    have hpmem : (evalPointsMany g objs k nOpt).1.getD i [] ∈
        (evalPointsMany g objs k nOpt).1 := by
      rw [List.getD_eq_getElem _ _ hips]
      exact List.getElem_mem hips
    rcases hcond _ hpmem with hpne | hzero
    · exact stackFillChild_getD_ge g kc hmn hpne hge hj2
    · rw [hzero] at hj2
      omega

/-- Concrete random stream for witnesses: always draw index 0. -/
def gZero : ℕ → ℕ := fun _ => 0

/-- Concrete STACK tree for the witness: two base ensembles with
evaluation points `[[1],[2]]` (2 samples, 1 dimension) and `[[3,4]]`
(1 sample, 2 dimensions). -/
def stackWitnessObjs : MEList :=
  .cons (.base [[1], [2]]) (.cons (.base [[3, 4]]) .nil)

theorem stack_eval_points_spec_witness :
    ((evalPoints gZero (.stack stackWitnessObjs) 0 none).1).length =
      (none : Option ℕ).getD
        (maxLen (evalPointsMany gZero stackWitnessObjs 0 none).1) ∧
    (dimsList stackWitnessObjs).sum = dims (.stack stackWitnessObjs) ∧
    (∀ row ∈ (evalPoints gZero (.stack stackWitnessObjs) 0 none).1,
      row.length = dims (.stack stackWitnessObjs)) ∧
    ∀ i, i < (dimsList stackWitnessObjs).length →
      ∀ j, j < ((evalPoints gZero (.stack stackWitnessObjs) 0 none).1).length →
        (j < ((evalPointsMany gZero stackWitnessObjs 0 none).1.getD
            i []).length →
          ((((evalPoints gZero (.stack stackWitnessObjs) 0 none).1).getD
              j []).drop
              (((dimsList stackWitnessObjs).take i).sum)).take
              ((dimsList stackWitnessObjs).getD i 0) =
            ((evalPointsMany gZero stackWitnessObjs 0 none).1.getD
              i []).getD j []) ∧
        (((evalPointsMany gZero stackWitnessObjs 0 none).1.getD
            i []).length ≤ j →
          ((((evalPoints gZero (.stack stackWitnessObjs) 0 none).1).getD
              j []).drop
              (((dimsList stackWitnessObjs).take i).sum)).take
              ((dimsList stackWitnessObjs).getD i 0) ∈
            (evalPointsMany gZero stackWitnessObjs 0 none).1.getD i []) :=
  stack_eval_points_spec gZero stackWitnessObjs 0 none rfl

/-- C6: for every JOIN node, `get_multi_ensemble_eval_points` returns
exactly `sample_count` rows (or the maximum of the children's row counts
when unset), and every returned row is a row present in some child's
returned point set — rows are drawn from the row-wise concatenation of the
children, never fabricated. -/
theorem join_eval_points_spec (g : ℕ → ℕ) (objs : MEList) (k : ℕ)
    (nOpt : Option ℕ) (hwf : wf (.join objs) = true) :
    ((evalPoints g (.join objs) k nOpt).1).length =
      nOpt.getD (maxLen (evalPointsMany g objs k nOpt).1) ∧
    ∀ row ∈ (evalPoints g (.join objs) k nOpt).1,
      ∃ p ∈ (evalPointsMany g objs k nOpt).1, row ∈ p := by
  obtain ⟨⟨hnil, hdims⟩, hall⟩ :
      (objs.isNil' = false ∧ allDimsEq objs (dimsFirst objs) = true) ∧
        wfAll objs = true := by
    simpa [wf, Bool.and_eq_true, Bool.not_eq_true', and_assoc] using hwf
  have hne : (evalPointsMany g objs k nOpt).1 ≠ [] := by
    cases objs with
    | nil => simp [MEList.isNil'] at hnil
    | cons m rest => simp [evalPointsMany]
  constructor
  · simp only [evalPoints]
    exact choice_length _ _ _ _
  · intro row hrow
    simp only [evalPoints] at hrow
    have hflat : ((evalPointsMany g objs k nOpt).1).flatten ≠ [] ∨
        nOpt.getD (maxLen (evalPointsMany g objs k nOpt).1) = 0 := by
      cases nOpt with
      | none =>
        left
        obtain ⟨p₀, hp₀⟩ := List.exists_mem_of_ne_nil _ hne
        have hp₀ne : p₀ ≠ [] :=
          evalPointsMany_ne_nil_none g objs k hall p₀ hp₀
        obtain ⟨r₀, hr₀⟩ := List.exists_mem_of_ne_nil _ hp₀ne
        exact List.ne_nil_of_mem (List.mem_flatten_of_mem hp₀ hr₀)
      | some n =>
        by_cases hn : n = 0
        · right
          rw [hn, Option.getD_some]
        · left
          obtain ⟨p₀, hp₀⟩ := List.exists_mem_of_ne_nil _ hne
          have hp₀len := evalPointsMany_length_some g objs k n hall p₀ hp₀
          have hp₀ne : p₀ ≠ [] := by
            intro hc
            rw [hc] at hp₀len
            simp only [List.length_nil] at hp₀len
            exact hn hp₀len.symm
          obtain ⟨r₀, hr₀⟩ := List.exists_mem_of_ne_nil _ hp₀ne
          exact List.ne_nil_of_mem (List.mem_flatten_of_mem hp₀ hr₀)
    rcases hflat with hflat | hzero
    · exact List.mem_flatten.mp (mem_choice hflat hrow)
    · rw [hzero] at hrow
      simp [choice] at hrow

/-- Concrete JOIN tree for the witness: two base ensembles with one shared
dimension, evaluation points `[[1],[2]]` and `[[3]]`. -/
def joinWitnessObjs : MEList :=
  .cons (.base [[1], [2]]) (.cons (.base [[3]]) .nil)

theorem join_eval_points_spec_witness :
    ((evalPoints gZero (.join joinWitnessObjs) 0 none).1).length =
      (none : Option ℕ).getD
        (maxLen (evalPointsMany gZero joinWitnessObjs 0 none).1) ∧
    ∀ row ∈ (evalPoints gZero (.join joinWitnessObjs) 0 none).1,
      ∃ p ∈ (evalPointsMany gZero joinWitnessObjs 0 none).1, row ∈ p :=
  join_eval_points_spec gZero joinWitnessObjs 0 none rfl

/-! ## Connection weight solver

Embedding of `build_solver` from `src/nengo_bio/builder/connection.py`
(lines 106-213).  External capabilities (the pre ensembles' evaluation
points and activities, `get_targets`, the sampled transform, the post
ensemble's encoders/gain/bias, and the pluggable solver) are supplied by a
`ConnOracle`.  numpy arrays that are created, copied (`np.copy`) and
potentially mutated are modelled by an explicit heap from array
identifiers to contents, so that copy-versus-view (aliasing) statements
are expressible; `Heap.alloc` is numpy array creation, `Heap.write` is an
in-place mutation of an existing array.
`remove_bias_current` mutates the host model's operator graph and is
outside the data model here; the `decode_bias` contribution to the target
currents is embedded. -/

/-- A store of numpy arrays: contents per identifier, plus the next fresh
identifier.  All live arrays have identifiers below `next`. -/
structure Heap where
  data : ℕ → Mat
  next : ℕ

/-- Creating a new array with the given contents. -/
def Heap.alloc (h : Heap) (m : Mat) : Heap × ℕ :=
  (⟨fun i => if i = h.next then m else h.data i, h.next + 1⟩, h.next)

/-- Mutating an existing array in place. -/
def Heap.write (h : Heap) (i : ℕ) (m : Mat) : Heap :=
  ⟨fun j => if j = i then m else h.data j, h.next⟩

/-- The synapse sign tags `Excitatory` / `Inhibitory` from
`nengo_bio.common`. -/
inductive Synapse where
  | excitatory
  | inhibitory
deriving Repr, DecidableEq

/-- `BuiltConnection` (connection.py lines 24-31): the two cached weight
arrays (by heap identifier) and the per-pre-entry dimension and neuron
ranges. -/
structure BuiltConnection where
  weightsExc : ℕ
  weightsInh : ℕ
  pre_idx_dim_map : List (ℕ × ℕ)
  pre_idx_neurons_map : List (ℕ × ℕ)
deriving Repr, DecidableEq

/-- `bc.weights[synapse_type]`. -/
def BuiltConnection.weightsId (bc : BuiltConnection) : Synapse → ℕ
  | .excitatory => bc.weightsExc
  | .inhibitory => bc.weightsInh

/-- The external data `build_solver` consumes for one connection: per pre
entry the evaluation points (`model.params[pre_].eval_points` or the
connection's own `eval_points` slice), the activities
(`get_activities`), the synapse-type masks and the sizes; for the post
ensemble the targets oracle (`get_targets`), the sampled dense transform,
encoders, gain and bias; and the pluggable solver. -/
structure ConnOracle where
  eval_points_list : List Mat
  activities_list : List Mat
  synapse_types_exc : List (List Bool)
  synapse_types_inh : List (List Bool)
  pre_size_out : List ℕ
  pre_n_neurons : List ℕ
  get_targets : Mat → Mat
  transform_is_dense : Bool
  transform : Mat
  encoders : Mat
  gain : List ℚ
  bias : List ℚ
  decode_bias : Bool
  solve : Mat → Mat → List Bool × List Bool → Mat × Mat

/-- Dot product of two float vectors. -/
def dot (a b : List ℚ) : ℚ :=
  (List.zipWith (· * ·) a b).sum

/-- `A @ B.T`: entry `(i, j)` is the dot product of row `i` of `A` with
row `j` of `B`. -/
def matMulT (A B : Mat) : Mat :=
  A.map fun r => B.map fun c => dot r c

/-- Columnwise (broadcast) multiplication `M * v`. -/
def scaleCols (M : Mat) (v : List ℚ) : Mat :=
  M.map fun r => List.zipWith (· * ·) r v

/-- Broadcast row-vector addition `M + v`. -/
def addRowVec (M : Mat) (v : List ℚ) : Mat :=
  M.map fun r => List.zipWith (· + ·) r v

/-- Entrywise negation `-M`. -/
def negMat (M : Mat) : Mat :=
  M.map fun r => r.map Neg.neg

/-- `M[n0:n1]`. -/
def rowSlice (M : Mat) (n0 n1 : ℕ) : Mat :=
  (M.drop n0).take (n1 - n0)

/-- `np.concatenate(ms, axis=1)`: horizontal concatenation, which numpy
rejects (`ValueError`) when the row counts disagree. -/
def concatColsGuarded (ms : List Mat) : Option Mat :=
  if ((ms.map List.length).dedup).length ≤ 1 then
    some (hstackAllH (maxLen ms) ms)
  else
    none

/-- The per-pre `(start, end)` ranges produced by the prefix sums
`d0, d1 = d1, d1 + pre_.size_out` (and likewise for neuron counts). -/
def index_map (sizes : List ℕ) (acc : ℕ) : List (ℕ × ℕ) :=
  match sizes with
  | [] => []
  | s :: rest => (acc, acc + s) :: index_map rest (acc + s)

/-- The sample-count test exactly as written at connection.py line 157:
`len(set(map(lambda x: x.shape[0], eval_points))) > 1` — where
`eval_points` is the loop variable left over from the per-pre loop, i.e.
the LAST pre entry's evaluation-point matrix, so the mapped `x.shape[0]`
are the per-row lengths (widths) of that one 2-D array. -/
def sample_count_check_as_written (eval_points : Mat) : Bool :=
  ((eval_points.map List.length).dedup).length > 1

/-- Modelled from the spec: the intended check of spec section 4.2 step 2,
"Verify all pre entries produced the same sample count", over the list of
per-pre evaluation-point matrices (`eval_points_list`), which the code
comment at connection.py line 156 also announces. -/
def spec_sample_count_check (eval_points_list : List Mat) : Bool :=
  ((eval_points_list.map List.length).dedup).length > 1

/-- The failure modes of the build: the two `BuildError`s the code can
raise, and a generic numpy `ValueError` (e.g. from `np.concatenate` on
mismatched shapes), which is not a `BuildError`. -/
inductive BuildFailure where
  | evalPointCountMismatch
  | nonDenseTransform
  | numpyValueError
deriving Repr, DecidableEq

/-- The concatenated synapse-type masks (connection.py lines 166-168). -/
def synapse_types_all (o : ConnOracle) : List Bool × List Bool :=
  (o.synapse_types_exc.flatten, o.synapse_types_inh.flatten)

/-- The target currents (connection.py lines 170-189): targets from the
oracle, multiplied by the sampled transform's transpose, mapped through
the post encoders and gain, plus the post bias when `decode_bias`. -/
def target_currents (o : ConnOracle) (eval_points : Mat) : Mat :=
  if o.decode_bias then
    addRowVec (scaleCols
      (matMulT (matMulT (o.get_targets eval_points) o.transform) o.encoders)
      o.gain) o.bias
  else
    scaleCols
      (matMulT (matMulT (o.get_targets eval_points) o.transform) o.encoders)
      o.gain

/-- The build branch of `build_solver` (connection.py lines 113-202): the
per-pre index maps, the (as-written) sample-count check, the
concatenations, the dense-transform check, the solver invocation, and the
allocation of the two cached weight arrays — the inhibitory one negated
before storage. -/
def build_connection (heap : Heap) (o : ConnOracle) :
    Except BuildFailure (Heap × BuiltConnection) :=
  if sample_count_check_as_written (o.eval_points_list.getLastD []) then
    .error .evalPointCountMismatch
  else
    match concatColsGuarded o.eval_points_list,
        concatColsGuarded o.activities_list with
    | some eval_points, some activities =>
      if o.transform_is_dense then
        let WEI := o.solve activities (target_currents o eval_points)
          (synapse_types_all o)
        let h1 := heap.alloc WEI.1
        let h2 := h1.1.alloc (negMat WEI.2)
        .ok (h2.1, ⟨h1.2, h2.2, index_map o.pre_size_out 0,
          index_map o.pre_n_neurons 0⟩)
      else
        .error .nonDenseTransform
    | _, _ => .error .numpyValueError

/-- The weight hand-out at the end of `build_solver` (lines 209-213):
`W = np.copy(bc.weights[solver.synapse_type][n0:n1].T)` — a fresh array
holding the transposed row slice for the selected pre entry. -/
def weight_request (heap : Heap) (bc : BuiltConnection) (pre_idx : ℕ)
    (syn : Synapse) : Heap × ℕ :=
  heap.alloc (List.transpose (rowSlice (heap.data (bc.weightsId syn))
    (bc.pre_idx_neurons_map.getD pre_idx (0, 0)).1
    (bc.pre_idx_neurons_map.getD pre_idx (0, 0)).2))

/-- `build_solver` (connection.py lines 106-213): build and cache the
`BuiltConnection` on the first request for a connection (`model.params`
is the association list `params`, the connection the key), then hand out
a fresh copy of the requested weight slice.  The returned `Bool` records
whether the build branch ran. -/
def build_solver (heap : Heap) (params : List (ℕ × BuiltConnection))
    (key : ℕ) (o : ConnOracle) (pre_idx : ℕ) (syn : Synapse) :
    Except BuildFailure (Heap × List (ℕ × BuiltConnection) × ℕ × Bool) :=
  match params.lookup key with
  | some bc =>
    .ok ((weight_request heap bc pre_idx syn).1, params,
      (weight_request heap bc pre_idx syn).2, false)
  | none =>
    match build_connection heap o with
    | .error e => .error e
    | .ok hbc =>
      .ok ((weight_request hbc.1 hbc.2 pre_idx syn).1,
        (key, hbc.2) :: params,
        (weight_request hbc.1 hbc.2 pre_idx syn).2, true)

theorem dedup_length_le_one {l : List ℕ} {w : ℕ} (h : ∀ x ∈ l, x = w) :
    l.dedup.length ≤ 1 := by
  induction l with
  | nil => simp
  | cons x xs ih =>
    have hx : x = w := h x (by simp)
    by_cases hmem : x ∈ xs
    · rw [List.dedup_cons_of_mem hmem]
      exact ih fun y hy => h y (by simp [hy])
    · rw [List.dedup_cons_of_not_mem hmem]
      have hxs : xs = [] := by
        cases xs with
        | nil => rfl
        | cons y ys =>
          exfalso
          apply hmem
          have hy : y = w := h y (by simp)
          rw [hx, ← hy]
          exact List.mem_cons_self y ys
      rw [hxs]
      simp

/-- The check at connection.py line 157 can never fire: it inspects the
per-row lengths of one numpy 2-D array (the last pre entry's evaluation
points), which are all equal. -/
theorem sample_count_check_never_fires {M : Mat} {w : ℕ}
    (h : ∀ r ∈ M, r.length = w) :
    sample_count_check_as_written M = false := by
  unfold sample_count_check_as_written
  have hle := @dedup_length_le_one (M.map List.length) w
    (by simpa using h)
  simp only [gt_iff_lt, decide_eq_false_iff_not, not_lt]
  exact hle

/-- Entrywise nonnegativity of a matrix. -/
def nonnegMat (M : Mat) : Prop :=
  ∀ r ∈ M, ∀ x ∈ r, 0 ≤ x

/-- Entrywise nonpositivity of a matrix. -/
def nonposMat (M : Mat) : Prop :=
  ∀ r ∈ M, ∀ x ∈ r, x ≤ 0

theorem negMat_nonpos {M : Mat} (h : nonnegMat M) : nonposMat (negMat M) := by
  intro r hr x hx
  simp only [negMat, List.mem_map] at hr
  obtain ⟨r0, hr0, rfl⟩ := hr
  simp only [List.mem_map] at hx
  obtain ⟨y, hy, rfl⟩ := hx
  simpa using h r0 hr0 y hy

/-- Pre-entry data for the C1 failing input: two pre ensembles whose
evaluation-point matrices have 3 and 4 rows respectively. -/
def c1EvalPointsList : List Mat :=
  [[[0], [0], [0]], [[0], [0], [0], [0]]]

/-- The C1 failing input as an oracle. -/
def c1Oracle : ConnOracle :=
  ⟨c1EvalPointsList, c1EvalPointsList, [[true], [true]], [[false], [false]],
   [1, 1], [1, 1], id, true, [[1]], [[1]], [1], [1], false,
   fun _ _ _ => ([], [])⟩

/-- An empty heap. -/
def emptyHeap : Heap := ⟨fun _ => [], 0⟩

/-- C1 (refuted by the code): on pre entries that report different sample
counts (3 and 4 rows), the check the spec describes fires, but the check
as written at connection.py line 157 — applied to the rows of the LAST
pre entry's matrix — does not, so `build_solver` never raises the
`BuildError` "The number of evaluation points must be the same for all
pre-objects"; the mismatch instead surfaces as the generic numpy
`ValueError` raised by `np.concatenate` at line 164. -/
theorem eval_point_count_mismatch_not_raised :
    spec_sample_count_check c1Oracle.eval_points_list = true ∧
    sample_count_check_as_written
      (c1Oracle.eval_points_list.getLastD []) = false ∧
    build_solver emptyHeap [] 7 c1Oracle 0 .excitatory =
      .error .numpyValueError ∧
    build_solver emptyHeap [] 7 c1Oracle 0 .excitatory ≠
      .error .evalPointCountMismatch := by
  refine ⟨rfl, rfl, rfl, ?_⟩
  intro h
  rw [show build_solver emptyHeap [] 7 c1Oracle 0 .excitatory =
    .error .numpyValueError from rfl] at h
  injection h with h2
  exact BuildFailure.noConfusion h2

/-- C3 (amended): a solve request that finds the cached `BuiltConnection`
does not rebuild — the parameter map is unchanged, the build branch does
not run — and, for any pre-entry selector and sign, hands out a freshly
allocated copy of the transposed row slice of the cached weight matrix;
after a successful first build the connection is cached, so any second
request takes that path. -/
theorem build_solver_cached_slice (heap : Heap)
    (params : List (ℕ × BuiltConnection)) (key : ℕ) (o : ConnOracle)
    (pre_idx : ℕ) (syn : Synapse) :
    (∀ bc, params.lookup key = some bc →
      build_solver heap params key o pre_idx syn =
        .ok ((weight_request heap bc pre_idx syn).1, params,
          (weight_request heap bc pre_idx syn).2, false) ∧
      (weight_request heap bc pre_idx syn).2 = heap.next ∧
      ((weight_request heap bc pre_idx syn).1).data heap.next =
        List.transpose (rowSlice (heap.data (bc.weightsId syn))
          (bc.pre_idx_neurons_map.getD pre_idx (0, 0)).1
          (bc.pre_idx_neurons_map.getD pre_idx (0, 0)).2)) ∧
    (params.lookup key = none →
      ∀ h2 bc2, build_connection heap o = .ok (h2, bc2) →
        build_solver heap params key o pre_idx syn =
          .ok ((weight_request h2 bc2 pre_idx syn).1, (key, bc2) :: params,
            (weight_request h2 bc2 pre_idx syn).2, true) ∧
        ((key, bc2) :: params).lookup key = some bc2) := by
  constructor
  · intro bc hbc
    refine ⟨?_, rfl, ?_⟩
    · unfold build_solver
      rw [hbc]
    · simp [weight_request, Heap.alloc]
  · intro hnone h2 bc2 hbuild
    constructor
    · unfold build_solver
      rw [hnone, hbuild]
    · simp [List.lookup]

/-- Concrete oracle also exercising the build branch in witnesses: one
pre ensemble, one evaluation point, solver returning `WE = [[1]]`,
`WI = [[2]]`. -/
def c8Oracle : ConnOracle :=
  ⟨[[[1]]], [[[2]]], [[true]], [[false]], [1], [1], id, true, [[1]],
   [[1]], [1], [0], false, fun _ _ _ => ([[1]], [[2]])⟩

/-- Concrete cached state: excitatory weights `[[1,2],[3,4]]` at array 0,
inhibitory weights at array 1, next fresh identifier 2. -/
def cacheHeap : Heap :=
  ⟨fun i => if i = 0 then [[1, 2], [3, 4]]
    else if i = 1 then [[-5, -6], [-7, -8]] else [], 2⟩

/-- The cached `BuiltConnection` for `cacheHeap`. -/
def cacheBC : BuiltConnection := ⟨0, 1, [(0, 2)], [(0, 2)]⟩

/-- A parameter map caching `cacheBC` under key 7. -/
def cacheParams : List (ℕ × BuiltConnection) := [(7, cacheBC)]

/-- An oracle whose fields are never consulted (cache-hit path). -/
def dummyOracle : ConnOracle :=
  ⟨[], [], [], [], [], [], id, true, [], [], [], [], false,
   fun _ _ _ => ([], [])⟩

theorem build_solver_cached_slice_witness :
    (build_solver cacheHeap cacheParams 7 dummyOracle 0 .excitatory =
      .ok ((weight_request cacheHeap cacheBC 0 .excitatory).1, cacheParams,
        (weight_request cacheHeap cacheBC 0 .excitatory).2, false) ∧
      (weight_request cacheHeap cacheBC 0 .excitatory).2 =
        cacheHeap.next ∧
      ((weight_request cacheHeap cacheBC 0 .excitatory).1).data
          cacheHeap.next =
        List.transpose (rowSlice
          (cacheHeap.data (cacheBC.weightsId .excitatory))
          (cacheBC.pre_idx_neurons_map.getD 0 (0, 0)).1
          (cacheBC.pre_idx_neurons_map.getD 0 (0, 0)).2)) ∧
    (build_solver emptyHeap [] 7 c8Oracle 0 .excitatory =
      .ok ((weight_request ((emptyHeap.alloc [[1]]).1.alloc
            (negMat [[2]])).1 ⟨0, 1, [(0, 1)], [(0, 1)]⟩ 0 .excitatory).1,
        (7, (⟨0, 1, [(0, 1)], [(0, 1)]⟩ : BuiltConnection)) :: [],
        (weight_request ((emptyHeap.alloc [[1]]).1.alloc
            (negMat [[2]])).1 ⟨0, 1, [(0, 1)], [(0, 1)]⟩ 0 .excitatory).2,
        true) ∧
      ((7, (⟨0, 1, [(0, 1)], [(0, 1)]⟩ : BuiltConnection)) :: []).lookup
          7 = some ⟨0, 1, [(0, 1)], [(0, 1)]⟩) :=
  ⟨(build_solver_cached_slice cacheHeap cacheParams 7 dummyOracle 0
      .excitatory).1 cacheBC rfl,
   (build_solver_cached_slice emptyHeap [] 7 c8Oracle 0 .excitatory).2 rfl
     ((emptyHeap.alloc [[1]]).1.alloc (negMat [[2]])).1
     ⟨0, 1, [(0, 1)], [(0, 1)]⟩ rfl⟩

/-- C3 (counterexample to the claim as stated): the weight matrix handed
back for a cached connection is NOT a view into the cached weight
matrices: it is a fresh array (identifier 2, distinct from the cached
array 0), and writing through it leaves the cached matrix unchanged —
under view semantics the write would be visible in the cache. -/
theorem build_solver_weights_not_a_view :
    build_solver cacheHeap cacheParams 7 dummyOracle 0 .excitatory =
      .ok ((weight_request cacheHeap cacheBC 0 .excitatory).1, cacheParams,
        (weight_request cacheHeap cacheBC 0 .excitatory).2, false) ∧
    (weight_request cacheHeap cacheBC 0 .excitatory).2 ≠
      cacheBC.weightsExc ∧
    (((weight_request cacheHeap cacheBC 0 .excitatory).1).write
        (weight_request cacheHeap cacheBC 0 .excitatory).2 [[99]]).data
        cacheBC.weightsExc = cacheHeap.data cacheBC.weightsExc ∧
    cacheHeap.data cacheBC.weightsExc ≠ [[99]] := by
  refine ⟨rfl, by decide, rfl, ?_⟩
  intro h
  have := congrArg List.length h
  simp [cacheHeap, cacheBC] at this

/-- C10: the weight matrix handed back for an already-built connection is
a fresh copy (allocated at the previously unused identifier) of the
transposed row slice `bc.weights[syn][n0:n1].T` for the selected pre
entry, and mutating the returned array leaves both cached weight arrays
of the `BuiltConnection` unchanged. -/
theorem weight_request_fresh_copy (heap : Heap)
    (params : List (ℕ × BuiltConnection)) (key : ℕ) (o : ConnOracle)
    (pre_idx : ℕ) (syn : Synapse) (bc : BuiltConnection)
    (hbc : params.lookup key = some bc)
    (hexc : bc.weightsExc < heap.next) (hinh : bc.weightsInh < heap.next) :
    build_solver heap params key o pre_idx syn =
      .ok ((weight_request heap bc pre_idx syn).1, params,
        (weight_request heap bc pre_idx syn).2, false) ∧
    ((weight_request heap bc pre_idx syn).1).data
        (weight_request heap bc pre_idx syn).2 =
      List.transpose (rowSlice (heap.data (bc.weightsId syn))
        (bc.pre_idx_neurons_map.getD pre_idx (0, 0)).1
        (bc.pre_idx_neurons_map.getD pre_idx (0, 0)).2) ∧
    ∀ v : Mat,
      (((weight_request heap bc pre_idx syn).1).write
          (weight_request heap bc pre_idx syn).2 v).data bc.weightsExc =
        heap.data bc.weightsExc ∧
      (((weight_request heap bc pre_idx syn).1).write
          (weight_request heap bc pre_idx syn).2 v).data bc.weightsInh =
        heap.data bc.weightsInh := by
  refine ⟨?_, ?_, fun v => ⟨?_, ?_⟩⟩
  · unfold build_solver
    rw [hbc]
  · simp [weight_request, Heap.alloc]
  · simp only [weight_request, Heap.alloc, Heap.write]
    rw [if_neg (Nat.ne_of_lt hexc), if_neg (Nat.ne_of_lt hexc)]
  · simp only [weight_request, Heap.alloc, Heap.write]
    rw [if_neg (Nat.ne_of_lt hinh), if_neg (Nat.ne_of_lt hinh)]

theorem weight_request_fresh_copy_witness :
    build_solver cacheHeap cacheParams 7 dummyOracle 0 .excitatory =
      .ok ((weight_request cacheHeap cacheBC 0 .excitatory).1, cacheParams,
        (weight_request cacheHeap cacheBC 0 .excitatory).2, false) ∧
    ((weight_request cacheHeap cacheBC 0 .excitatory).1).data
        (weight_request cacheHeap cacheBC 0 .excitatory).2 =
      List.transpose (rowSlice (cacheHeap.data (cacheBC.weightsId
          .excitatory))
        (cacheBC.pre_idx_neurons_map.getD 0 (0, 0)).1
        (cacheBC.pre_idx_neurons_map.getD 0 (0, 0)).2) ∧
    ∀ v : Mat,
      (((weight_request cacheHeap cacheBC 0 .excitatory).1).write
          (weight_request cacheHeap cacheBC 0 .excitatory).2 v).data
          cacheBC.weightsExc =
        cacheHeap.data cacheBC.weightsExc ∧
      (((weight_request cacheHeap cacheBC 0 .excitatory).1).write
          (weight_request cacheHeap cacheBC 0 .excitatory).2 v).data
          cacheBC.weightsInh =
        cacheHeap.data cacheBC.weightsInh :=
  weight_request_fresh_copy cacheHeap cacheParams 7 dummyOracle 0
    .excitatory cacheBC rfl (by decide) (by decide)

/-- C8: when the build runs and the external solver returns `(WE, WI)`,
the cached `BuiltConnection` stores the excitatory matrix unchanged and
the inhibitory matrix negated (`weights[Inhibitory] = -WI`); so whenever
the solver's outputs are entrywise nonnegative, the stored excitatory
weights are entrywise `≥ 0` and the stored inhibitory weights are
entrywise `≤ 0`. -/
theorem build_connection_weight_signs (heap : Heap) (o : ConnOracle)
    (E A : Mat)
    (hcheck : sample_count_check_as_written
      (o.eval_points_list.getLastD []) = false)
    (hep : concatColsGuarded o.eval_points_list = some E)
    (hact : concatColsGuarded o.activities_list = some A)
    (hdense : o.transform_is_dense = true) :
    ∃ h2 bc, build_connection heap o = .ok (h2, bc) ∧
      h2.data bc.weightsExc =
        (o.solve A (target_currents o E) (synapse_types_all o)).1 ∧
      h2.data bc.weightsInh =
        negMat (o.solve A (target_currents o E) (synapse_types_all o)).2 ∧
      (nonnegMat (o.solve A (target_currents o E) (synapse_types_all o)).1 →
        nonnegMat (h2.data bc.weightsExc)) ∧
      (nonnegMat (o.solve A (target_currents o E) (synapse_types_all o)).2 →
        nonposMat (h2.data bc.weightsInh)) := by
  unfold build_connection
  rw [hcheck, hep, hact, hdense]
  simp only [Bool.false_eq_true, if_false, if_true]
  refine ⟨_, _, rfl, ?_, ?_, ?_, ?_⟩
  · simp [Heap.alloc]
  · simp [Heap.alloc]
  · intro h
    simpa [Heap.alloc] using h
  · intro h
    simpa [Heap.alloc] using negMat_nonpos h

theorem build_connection_weight_signs_witness :
    ∃ h2 bc, build_connection emptyHeap c8Oracle = .ok (h2, bc) ∧
      h2.data bc.weightsExc =
        (c8Oracle.solve [[2]] (target_currents c8Oracle [[1]])
          (synapse_types_all c8Oracle)).1 ∧
      h2.data bc.weightsInh =
        negMat (c8Oracle.solve [[2]] (target_currents c8Oracle [[1]])
          (synapse_types_all c8Oracle)).2 ∧
      (nonnegMat (c8Oracle.solve [[2]] (target_currents c8Oracle [[1]])
          (synapse_types_all c8Oracle)).1 →
        nonnegMat (h2.data bc.weightsExc)) ∧
      (nonnegMat (c8Oracle.solve [[2]] (target_currents c8Oracle [[1]])
          (synapse_types_all c8Oracle)).2 →
        nonposMat (h2.data bc.weightsInh)) :=
  build_connection_weight_signs emptyHeap c8Oracle [[1]] [[2]] rfl rfl rfl
    rfl

end NengoBio
